import Mathlib

/-!
Verification development for the exchange-core matching engine.

The definitions below are a shallow embedding of the Go sources:
`internal/engine/orderbook.go` (the variant with the `ordersByID` handle map),
`internal/engine/matcher.go`, `internal/engine/loop.go`, and the sqlc queries
(`UpsertOrder`, `GetOrderForUpdate`, `UpdateOrderAfterMatch`,
`MarkOrderCancelled`, `ListRestingAsks`, `ListRestingBids`, `InsertTrade`,
`CreateLedger`, `InsertLedgerEntry`, account upsert/lookup).

Modelling conventions:
* Go `int64` prices and quantities are `Int` (the arithmetic performed by the
  engine — `min`, subtraction of in-range values, and the `big.Int` notional
  product — never relies on wrap-around, and the notional is computed with
  `math/big` which is unbounded).
* Go maps are association lists; map assignment replaces the first binding of
  the key or appends a fresh binding; `delete` removes the binding.
* `container/list` queues are `List QNode`; a `*list.Element` is identified by
  the `nodeId` drawn from a per-book counter, mirroring pointer identity, and
  `ordersByID[...].elem` stores that `nodeId`.  `list.Remove` of an element
  that is no longer in the list is a no-op, exactly as in `container/list`.
* Randomly generated UUIDs (`mustNewUUID`) are modelled by the deterministic
  counter `DB.nextId`; `uuid.Parse` of an order-id string is modelled as always
  succeeding (the claims under study only concern ids that round-trip).
* A Go `nil`-pointer dereference (a panic) is modelled by an `Option`-valued
  operation returning `none`.
* The unbounded `for` loop of the matcher is run on explicit fuel; the fuel
  passed by `Submit` (number of resting orders on the opposite side plus two)
  is an upper bound on the iteration count, which is proved for well-formed
  books in `matchCore_eq_spec`.
-/

/-- Order side, Go `engine.Side` with constants `SideBuy` / `SideSell`. -/
inductive Side where
  | buy
  | sell
deriving DecidableEq, Repr

/-- String form of a side as stored durably (`string(cmd.Order.Side)`). -/
def sideStr : Side → String
  | .buy => "BUY"
  | .sell => "SELL"

/-- Go `engine.Order`.  `CreatedAt` is the Go `time.Time` modelled as an
integer tick (the bootstrap path leaves it at the zero value, as the Go code
does). -/
structure Order where
  ID : String
  UserID : String
  Market : String
  Side : Side
  Price : Int
  Quantity : Int
  Remaining : Int
  IsMarket : Bool
  CreatedAt : Int
deriving DecidableEq, Repr

/-- Go `engine.Trade`. -/
structure Trade where
  TakerOrderID : String
  MakerOrderID : String
  Price : Int
  Quantity : Int
deriving DecidableEq, Repr

/-- Go `engine.MatchResult`. -/
structure MatchResult where
  Trades : List Trade
  OrderFilled : Bool
  Remainder : Option Order
deriving DecidableEq, Repr

/-- One queue node of a price level; `nodeId` models the identity of the
`*list.Element` allocated by `PushBack`. -/
structure QNode where
  nodeId : Nat
  order : Order
deriving DecidableEq, Repr

/-- Go `engine.priceLevel`: FIFO queue of resting orders at one price. -/
structure PriceLevel where
  price : Int
  orders : List QNode
deriving DecidableEq, Repr

/-- Go `engine.orderRef`: the id-handle stored in `ordersByID`. -/
structure OrderRef where
  side : Side
  price : Int
  elem : Nat
deriving DecidableEq, Repr

/-- Go `engine.OrderBook` (the variant with `ordersByID`).  The two price
maps are association lists keyed by price; `nextNode` is the allocator for
queue-node identities. -/
structure OrderBook where
  bids : List (Int × PriceLevel)
  asks : List (Int × PriceLevel)
  bidPrices : List Int
  askPrices : List Int
  ordersByID : List (String × OrderRef)
  nextNode : Nat
deriving DecidableEq, Repr

/-- Go `NewOrderBook()`. -/
def NewOrderBook : OrderBook := ⟨[], [], [], [], [], 0⟩

/-- Association-list lookup, modelling a Go map read. -/
def lookupA {α β : Type} [DecidableEq α] : List (α × β) → α → Option β
  | [], _ => none
  | (k, v) :: rest, key => if k = key then some v else lookupA rest key

/-- Association-list write, modelling Go map assignment: replace the binding
of the key if present, append a fresh binding otherwise. -/
def setA {α β : Type} [DecidableEq α] : List (α × β) → α → β → List (α × β)
  | [], key, v => [(key, v)]
  | (k, w) :: rest, key, v =>
    if k = key then (key, v) :: rest else (k, w) :: setA rest key v

/-- Association-list delete, modelling Go `delete(m, key)`. -/
def eraseA {α β : Type} [DecidableEq α] : List (α × β) → α → List (α × β)
  | [], _ => []
  | (k, w) :: rest, key => if k = key then rest else (k, w) :: eraseA rest key

/-- Removal of the first occurrence of a price from a price vector: the Go
scan-and-break loop in `removeBidLevel` / `removeAskLevel`. -/
def removeFirst : List Int → Int → List Int
  | [], _ => []
  | p :: rest, q => if p = q then rest else p :: removeFirst rest q

/-- Descending insertion used to model `insertBidPrice` (Go appends and then
sorts the whole slice with `>`; on integer keys that equals inserting into the
already sorted vector). -/
def insertDesc (x : Int) : List Int → List Int
  | [] => [x]
  | y :: ys => if y ≤ x then x :: y :: ys else y :: insertDesc x ys

/-- Ascending insertion used to model `insertAskPrice`. -/
def insertAsc (x : Int) : List Int → List Int
  | [] => [x]
  | y :: ys => if x ≤ y then x :: y :: ys else y :: insertAsc x ys

/-- Go `OrderBook.AddOrder`.  Note that, exactly as in the source, there is no
duplicate-id check: the order is appended to its level queue and
`ordersByID[o.ID]` is overwritten with a handle to the new node. -/
def OrderBook.AddOrder (ob : OrderBook) (o : Order) : OrderBook :=
  match o.Side with
  | .buy =>
    let n : QNode := ⟨ob.nextNode, o⟩
    match lookupA ob.bids o.Price with
    | some lvl =>
      { ob with
        bids := setA ob.bids o.Price { lvl with orders := lvl.orders ++ [n] }
        ordersByID := setA ob.ordersByID o.ID ⟨.buy, o.Price, ob.nextNode⟩
        nextNode := ob.nextNode + 1 }
    | none =>
      { ob with
        bids := setA ob.bids o.Price ⟨o.Price, [n]⟩
        bidPrices := insertDesc o.Price ob.bidPrices
        ordersByID := setA ob.ordersByID o.ID ⟨.buy, o.Price, ob.nextNode⟩
        nextNode := ob.nextNode + 1 }
  | .sell =>
    let n : QNode := ⟨ob.nextNode, o⟩
    match lookupA ob.asks o.Price with
    | some lvl =>
      { ob with
        asks := setA ob.asks o.Price { lvl with orders := lvl.orders ++ [n] }
        ordersByID := setA ob.ordersByID o.ID ⟨.sell, o.Price, ob.nextNode⟩
        nextNode := ob.nextNode + 1 }
    | none =>
      { ob with
        asks := setA ob.asks o.Price ⟨o.Price, [n]⟩
        askPrices := insertAsc o.Price ob.askPrices
        ordersByID := setA ob.ordersByID o.ID ⟨.sell, o.Price, ob.nextNode⟩
        nextNode := ob.nextNode + 1 }

/-- Go `removeBidLevel`. -/
def OrderBook.removeBidLevel (ob : OrderBook) (price : Int) : OrderBook :=
  { ob with bids := eraseA ob.bids price, bidPrices := removeFirst ob.bidPrices price }

/-- Go `removeAskLevel`. -/
def OrderBook.removeAskLevel (ob : OrderBook) (price : Int) : OrderBook :=
  { ob with asks := eraseA ob.asks price, askPrices := removeFirst ob.askPrices price }

/-- Go `OrderBook.CancelOrder`.  Returns `none` where the Go code would panic:
when a handle exists but its price level has been deleted from the map, the Go
code dereferences the `nil` level (`lvl.orders.Remove`). -/
def OrderBook.CancelOrder (ob : OrderBook) (id : String) : Option (Bool × OrderBook) :=
  match lookupA ob.ordersByID id with
  | none => some (false, ob)
  | some ref =>
    let lvlOpt := match ref.side with
      | .buy => lookupA ob.bids ref.price
      | .sell => lookupA ob.asks ref.price
    match lvlOpt with
    | none => none
    | some lvl =>
      let lvl1 : PriceLevel := { lvl with orders := lvl.orders.filter (fun n => n.nodeId ≠ ref.elem) }
      let ob1 : OrderBook := match ref.side with
        | .buy => { ob with bids := setA ob.bids ref.price lvl1 }
        | .sell => { ob with asks := setA ob.asks ref.price lvl1 }
      let ob2 : OrderBook :=
        if lvl1.orders.isEmpty then
          match ref.side with
          | .buy => ob1.removeBidLevel ref.price
          | .sell => ob1.removeAskLevel ref.price
        else ob1
      some (true, { ob2 with ordersByID := eraseA ob2.ordersByID id })

/-- Go `min(a, b int64)`. -/
def engineMin (a b : Int) : Int := if a < b then a else b

/-- The pair (levels map, sorted price vector) of one book side, the state the
matching loop reads and writes. -/
structure SideState where
  levels : List (Int × PriceLevel)
  prices : List Int
deriving DecidableEq, Repr

/-- Entries of the level found at one price, tagged with the level's own
`price` field (the price the matcher charges). -/
def levelEntries (m : List (Int × PriceLevel)) (p : Int) : List (Int × Order) :=
  match lookupA m p with
  | some lvl => lvl.orders.map (fun n => (lvl.price, n.order))
  | none => []

/-- The opposite side flattened in price-vector order: the sequence of resting
orders the matching loop walks. -/
def flattenS (s : SideState) : List (Int × Order) :=
  s.prices.foldr (fun p acc => levelEntries s.levels p ++ acc) []

/-- The body of the matching loop of `matchBuy` / `matchSell` (the two Go
functions are literal mirrors of each other; `stop` is the side-specific limit
guard, and the side's map/vector pair is passed as `SideState`).  Each
iteration reads the best level, trades against the head of its queue, pops the
maker when fully consumed, and drops the level when its queue empties.
`none` models the Go panic of dereferencing `Front()` of an empty queue; a
price whose level is missing from the map makes `bestAsk()` return the map's
zero value `nil`, on which the loop breaks. -/
def matchCore (takerId : String) (stop : Int → Bool) :
    Nat → Int → SideState → List Trade → Option (List Trade × Int × SideState)
  | 0, _, _, _ => none
  | fuel + 1, remaining, s, acc =>
    if remaining ≤ 0 then some (acc, remaining, s) else
    match s.prices with
    | [] => some (acc, remaining, s)
    | p :: _ =>
      match lookupA s.levels p with
      | none => some (acc, remaining, s)
      | some lvl =>
        if stop lvl.price then some (acc, remaining, s) else
        match lvl.orders with
        | [] => none
        | n :: ns =>
          let q := engineMin remaining n.order.Remaining
          let t : Trade := ⟨takerId, n.order.ID, lvl.price, q⟩
          let mrem := n.order.Remaining - q
          let lvl1 : PriceLevel :=
            if mrem = 0 then { lvl with orders := ns }
            else { lvl with orders := { n with order := { n.order with Remaining := mrem } } :: ns }
          let s1 : SideState := ⟨setA s.levels p lvl1, s.prices⟩
          let s2 : SideState :=
            if lvl1.orders.isEmpty then ⟨eraseA s1.levels lvl.price, removeFirst s1.prices lvl.price⟩
            else s1
          matchCore takerId stop fuel (remaining - q) s2 (acc ++ [t])

/-- Limit guard of `matchBuy`: stop when the best ask is above the taker's
limit (`!o.IsMarket && bestAsk.price > o.Price`). -/
def buyStop (o : Order) (p : Int) : Bool := !o.IsMarket && decide (o.Price < p)

/-- Limit guard of `matchSell`: stop when the best bid is below the taker's
limit. -/
def sellStop (o : Order) (p : Int) : Bool := !o.IsMarket && decide (p < o.Price)

/-- Go `Matcher.matchBuy`.  Returns the match result, the (possibly mutated)
incoming order — the Go code writes `o.Remaining` only on the not-fully-filled
path — and the updated book. -/
def matchBuy (o : Order) (b : OrderBook) : Option (MatchResult × Order × OrderBook) :=
  let s0 : SideState := ⟨b.asks, b.askPrices⟩
  match matchCore o.ID (buyStop o) ((flattenS s0).length + 2) o.Remaining s0 [] with
  | none => none
  | some (tr, rem, s1) =>
    let b1 : OrderBook := { b with asks := s1.levels, askPrices := s1.prices }
    if rem = 0 then some (⟨tr, true, none⟩, o, b1)
    else
      let o1 : Order := { o with Remaining := rem }
      if o.IsMarket then some (⟨tr, false, some o1⟩, o1, b1)
      else some (⟨tr, false, some o1⟩, o1, b1.AddOrder o1)

/-- Go `Matcher.matchSell`, the mirror of `matchBuy` over the bid side. -/
def matchSell (o : Order) (b : OrderBook) : Option (MatchResult × Order × OrderBook) :=
  let s0 : SideState := ⟨b.bids, b.bidPrices⟩
  match matchCore o.ID (sellStop o) ((flattenS s0).length + 2) o.Remaining s0 [] with
  | none => none
  | some (tr, rem, s1) =>
    let b1 : OrderBook := { b with bids := s1.levels, bidPrices := s1.prices }
    if rem = 0 then some (⟨tr, true, none⟩, o, b1)
    else
      let o1 : Order := { o with Remaining := rem }
      if o.IsMarket then some (⟨tr, false, some o1⟩, o1, b1)
      else some (⟨tr, false, some o1⟩, o1, b1.AddOrder o1)

/-- Go `Matcher.Submit`. -/
def Submit (o : Order) (b : OrderBook) : Option (MatchResult × Order × OrderBook) :=
  match o.Side with
  | .buy => matchBuy o b
  | .sell => matchSell o b

/-- One durable row of the `orders` table. -/
structure DBOrder where
  id : String
  userId : String
  market : String
  side : String
  price : Int
  quantity : Int
  remaining : Int
  status : String
  createdAt : Int
deriving DecidableEq, Repr

/-- One durable row of the `trades` table; the engine-generated UUID is the
counter value `id`. -/
structure DBTrade where
  id : Nat
  takerOrderId : String
  makerOrderId : String
  price : Int
  quantity : Int
deriving DecidableEq, Repr

/-- One durable row of the `ledgers` table. -/
structure Ledger where
  id : Nat
  refType : String
  refId : Nat
deriving DecidableEq, Repr

/-- One durable row of the `ledger_entries` table. -/
structure LedgerEntry where
  id : Nat
  ledgerId : Nat
  accountId : Nat
  amount : Int
deriving DecidableEq, Repr

/-- One durable row of the `accounts` table (the stored balance is always
written as zero and never read by the engine, so it is omitted). -/
structure Account where
  id : Nat
  userId : String
  asset : String
deriving DecidableEq, Repr

/-- The durable state.  `nextId` models both the generated UUIDs and the
monotone `created_at` clock. -/
structure DB where
  orders : List DBOrder
  trades : List DBTrade
  ledgers : List Ledger
  entries : List LedgerEntry
  accounts : List Account
  nextId : Nat
deriving DecidableEq, Repr

/-- The empty database. -/
def emptyDB : DB := ⟨[], [], [], [], [], 0⟩

/-- sqlc `GetOrderForUpdate` (`SELECT ... WHERE id = $1 FOR UPDATE`); the
caller appends the id to the lock log. -/
def GetOrderForUpdate (db : DB) (id : String) : Option DBOrder :=
  db.orders.find? (fun r => r.id == id)

/-- Go `statusFromAmounts`. -/
def statusFromAmounts (remaining original : Int) : String :=
  if remaining ≤ 0 then "FILLED"
  else if remaining < original then "PARTIAL"
  else "OPEN"

/-- sqlc `UpsertOrder` as called by `handlePlace`: insert the row, or on
conflict by id update only `remaining` and `status`.  `created_at DEFAULT
now()` is modelled by stamping the monotone counter. -/
def UpsertOrder (db : DB) (o : Order) : DB :=
  if db.orders.any (fun r => r.id == o.ID) then
    { db with orders := db.orders.map (fun r =>
        if r.id = o.ID then
          { r with remaining := o.Remaining,
                   status := statusFromAmounts o.Remaining o.Quantity }
        else r) }
  else
    { db with
      orders := db.orders ++
        [⟨o.ID, o.UserID, o.Market, sideStr o.Side, o.Price, o.Quantity,
          o.Remaining, statusFromAmounts o.Remaining o.Quantity, db.nextId⟩],
      nextId := db.nextId + 1 }

/-- sqlc `UpdateOrderAfterMatch` (`UPDATE orders SET remaining, status WHERE id`). -/
def UpdateOrderAfterMatch (db : DB) (id : String) (remaining : Int) (status : String) : DB :=
  { db with orders := db.orders.map (fun r =>
      if r.id = id then { r with remaining := remaining, status := status } else r) }

/-- sqlc `MarkOrderCancelled` (`UPDATE ... SET status='CANCELLED' WHERE id=$1
AND status IN ('OPEN','PARTIAL')`); an `:exec` statement, so updating zero rows
is not an error. -/
def MarkOrderCancelled (db : DB) (id : String) : DB :=
  { db with orders := db.orders.map (fun r =>
      if r.id = id ∧ (r.status = "OPEN" ∨ r.status = "PARTIAL")
      then { r with status := "CANCELLED" } else r) }

/-- Go `getOrCreateAccountID`: look the (user, asset) account up, creating it
with a fresh id when absent. -/
def getOrCreateAccountID (db : DB) (user asset : String) : Nat × DB :=
  match db.accounts.find? (fun a => a.userId == user && a.asset == asset) with
  | some acc => (acc.id, db)
  | none =>
    (db.nextId,
     { db with accounts := db.accounts ++ [⟨db.nextId, user, asset⟩],
               nextId := db.nextId + 1 })

/-- sqlc `InsertLedgerEntry`. -/
def InsertLedgerEntry (db : DB) (ledgerId accountId : Nat) (amount : Int) : DB :=
  { db with entries := db.entries ++ [⟨db.nextId, ledgerId, accountId, amount⟩],
            nextId := db.nextId + 1 }

/-- The body of the per-trade loop of Go `persistTradesAndLedger`: insert the
trade, create its ledger header, read both order rows under `FOR UPDATE`
(appending to the lock log in acquisition order), resolve the four accounts,
and post the four signed entries. -/
def persistOne (db : DB) (tr : Trade) (log : List String) :
    Except String (DB × List String) :=
  let tradeId := db.nextId
  let db1 : DB := { db with
    trades := db.trades ++ [⟨tradeId, tr.TakerOrderID, tr.MakerOrderID, tr.Price, tr.Quantity⟩],
    nextId := db.nextId + 1 }
  let ledgerId := db1.nextId
  let db2 : DB := { db1 with
    ledgers := db1.ledgers ++ [⟨ledgerId, "trade", tradeId⟩],
    nextId := db1.nextId + 1 }
  match GetOrderForUpdate db2 tr.TakerOrderID with
  | none => .error "taker order row not found"
  | some takerRow =>
  match GetOrderForUpdate db2 tr.MakerOrderID with
  | none => .error "maker order row not found"
  | some makerRow =>
    let log1 := log ++ [tr.TakerOrderID, tr.MakerOrderID]
    let notional := tr.Price * tr.Quantity
    let buyerUser := if takerRow.side = "BUY" then takerRow.userId else makerRow.userId
    let sellerUser := if takerRow.side = "BUY" then makerRow.userId else takerRow.userId
    let a1 := getOrCreateAccountID db2 buyerUser "USD"
    let a2 := getOrCreateAccountID a1.2 buyerUser "BTC"
    let a3 := getOrCreateAccountID a2.2 sellerUser "USD"
    let a4 := getOrCreateAccountID a3.2 sellerUser "BTC"
    let db3 := InsertLedgerEntry a4.2 ledgerId a1.1 (-notional)
    let db4 := InsertLedgerEntry db3 ledgerId a2.1 tr.Quantity
    let db5 := InsertLedgerEntry db4 ledgerId a4.1 (-tr.Quantity)
    let db6 := InsertLedgerEntry db5 ledgerId a3.1 notional
    .ok (db6, log1)

/-- The fold of `persistOne` over the emitted trades. -/
def persistLoop : DB → List String → List Trade → Except String (DB × List String)
  | db, log, [] => .ok (db, log)
  | db, log, tr :: rest =>
    match persistOne db tr log with
    | .error e => .error e
    | .ok (db1, log1) => persistLoop db1 log1 rest

/-- Go `persistTradesAndLedger`, also returning the sequence of order ids
locked with `FOR UPDATE`, in acquisition order. -/
def persistTradesAndLedger (db : DB) (trades : List Trade) :
    Except String (DB × List String) :=
  persistLoop db [] trades

/-- The `filled` quantity map of Go `updateMatchedOrders`; Go map iteration
order is unspecified, so it is modelled as an association list in first-touch
order (each id is updated exactly once, so the resulting rows do not depend on
the order). -/
def bumpA : List (String × Int) → String → Int → List (String × Int)
  | [], k, v => [(k, v)]
  | (k0, v0) :: rest, k, v =>
    if k0 = k then (k0, v0 + v) :: rest else (k0, v0) :: bumpA rest k v

/-- Accumulate per-order filled quantities over the emitted trades. -/
def buildFilled (trades : List Trade) : List (String × Int) :=
  trades.foldl (fun m tr => bumpA (bumpA m tr.TakerOrderID tr.Quantity) tr.MakerOrderID tr.Quantity) []

/-- The per-touched-order loop of Go `updateMatchedOrders`: the taker uses the
in-memory values (no row lock), makers are read under `FOR UPDATE`, decremented
by the filled quantity, clamped at zero, and written back. -/
def updateLoop (taker : Order) : DB → List String → List (String × Int) →
    Except String (DB × List String)
  | db, log, [] => .ok (db, log)
  | db, log, (oid, f) :: rest =>
    if oid = taker.ID then
      let status := statusFromAmounts taker.Remaining taker.Quantity
      updateLoop taker (UpdateOrderAfterMatch db oid taker.Remaining status) log rest
    else
      match GetOrderForUpdate db oid with
      | none => .error "order row not found"
      | some row =>
        let newRem0 := row.remaining - f
        let newRem := if newRem0 < 0 then 0 else newRem0
        let status := statusFromAmounts newRem row.quantity
        updateLoop taker (UpdateOrderAfterMatch db oid newRem status) (log ++ [oid]) rest

/-- Go `updateMatchedOrders`. -/
def updateMatchedOrders (db : DB) (taker : Order) (trades : List Trade) :
    Except String (DB × List String) :=
  updateLoop taker db [] (buildFilled trades)

/-- Go `handlePlace`: match in memory, upsert the (post-match) incoming order,
persist trades and ledger, update touched rows, commit.  On a storage error the
durable transaction rolls back (the returned `DB` is the input) while the
in-memory book keeps the matcher's mutations (policy A).  The outer `Option` is
`none` where the matcher would panic.  The final component is the transaction's
`FOR UPDATE` lock log. -/
def handlePlace (o : Order) (b : OrderBook) (db : DB) :
    Option (Except String MatchResult × OrderBook × DB × List String) :=
  match Submit o b with
  | none => none
  | some (res, o1, b1) =>
    let db1 := UpsertOrder db o1
    if res.Trades.isEmpty then some (.ok res, b1, db1, [])
    else
      match persistTradesAndLedger db1 res.Trades with
      | .error e => some (.error e, b1, db, [])
      | .ok (db2, log1) =>
        match updateMatchedOrders db2 o1 res.Trades with
        | .error e => some (.error e, b1, db, log1)
        | .ok (db3, log2) => some (.ok res, b1, db3, log1 ++ log2)

/-- Go `handleCancel`: mark the row cancelled if live, remove the order from
the in-memory book, commit, and reply `true` unconditionally (the Go code
discards both the `:exec` row count and the book's boolean).  `none` models the
panic inside `CancelOrder`. -/
def handleCancel (db : DB) (b : OrderBook) (id : String) :
    Option (Bool × DB × OrderBook) :=
  let db1 := MarkOrderCancelled db id
  match b.CancelOrder id with
  | none => none
  | some (_, b1) => some (true, db1, b1)

/-- Lexicographic comparison of character lists by code point. -/
def charsLe : List Char → List Char → Bool
  | [], _ => true
  | _ :: _, [] => false
  | c :: cs, d :: ds =>
    if c.val < d.val then true
    else if d.val < c.val then false
    else charsLe cs ds

/-- Boolean comparison used to model the SQL `ORDER BY` tie-break on ids. -/
def strLe (a b : String) : Bool := charsLe a.data b.data

/-- Generic insertion by a boolean ordering. -/
def insertBy {α : Type} (le : α → α → Bool) (x : α) : List α → List α
  | [] => [x]
  | y :: ys => if le x y then x :: y :: ys else y :: insertBy le x ys

/-- Generic insertion sort by a boolean ordering. -/
def sortBy {α : Type} (le : α → α → Bool) (l : List α) : List α :=
  l.foldr (insertBy le) []

/-- `ORDER BY price ASC, created_at ASC, id ASC` comparison. -/
def askRowLe (a b : DBOrder) : Bool :=
  if a.price ≠ b.price then decide (a.price < b.price)
  else if a.createdAt ≠ b.createdAt then decide (a.createdAt < b.createdAt)
  else strLe a.id b.id

/-- `ORDER BY price DESC, created_at ASC, id ASC` comparison. -/
def bidRowLe (a b : DBOrder) : Bool :=
  if a.price ≠ b.price then decide (b.price < a.price)
  else if a.createdAt ≠ b.createdAt then decide (a.createdAt < b.createdAt)
  else strLe a.id b.id

/-- The market filter of the resting-order queries (`$1 = '' OR market = $1`). -/
def marketMatches (market : String) (r : DBOrder) : Bool :=
  market == "" || r.market == market

/-- sqlc `ListRestingAsks`. -/
def ListRestingAsks (db : DB) (market : String) : List DBOrder :=
  sortBy askRowLe (db.orders.filter (fun r =>
    (r.status == "OPEN" || r.status == "PARTIAL") && r.side == "SELL" && marketMatches market r))

/-- sqlc `ListRestingBids`. -/
def ListRestingBids (db : DB) (market : String) : List DBOrder :=
  sortBy bidRowLe (db.orders.filter (fun r =>
    (r.status == "OPEN" || r.status == "PARTIAL") && r.side == "BUY" && marketMatches market r))

/-- Conversion of a durable row to an in-memory order as done in `Bootstrap`
(`IsMarket` is always false, `CreatedAt` is left at the zero value). -/
def orderOfRow (side : Side) (r : DBOrder) : Order :=
  ⟨r.id, r.userId, r.market, side, r.price, r.quantity, r.remaining, false, 0⟩

/-- Go `Engine.Bootstrap`: reload resting asks, then resting bids, into the
book. -/
def Bootstrap (db : DB) (b : OrderBook) (market : String) : OrderBook :=
  let b1 := (ListRestingAsks db market).foldl (fun bk r => bk.AddOrder (orderOfRow .sell r)) b
  (ListRestingBids db market).foldl (fun bk r => bk.AddOrder (orderOfRow .buy r)) b1

/-!
Concrete scenarios used by the claim theorems.  `exS1`/`exB1` is the spec's
end-to-end scenario 1 (full fill), `exM1` is an unfillable market order, and
the remaining orders exercise duplicate ids, zero quantities and lock order.
-/

/-- Resting maker of scenario 1: SELL id=S1 price=100 qty=1. -/
def exS1 : Order := ⟨"S1", "u2", "BTC-USD", .sell, 100, 1, 1, false, 0⟩

/-- Taker of scenario 1: BUY id=B1 price=100 qty=1. -/
def exB1 : Order := ⟨"B1", "u1", "BTC-USD", .buy, 100, 1, 1, false, 0⟩

/-- Default value used only to unwrap `handlePlace` results that are proved
to be `some`. -/
def placeDflt : Except String MatchResult × OrderBook × DB × List String :=
  (.error "unreachable", NewOrderBook, emptyDB, [])

/-- State after placing S1 on an empty engine. -/
def placeS1 : Except String MatchResult × OrderBook × DB × List String :=
  (handlePlace exS1 NewOrderBook emptyDB).getD placeDflt

/-- State after then placing B1 (which fully fills against S1). -/
def placeB1 : Except String MatchResult × OrderBook × DB × List String :=
  (handlePlace exB1 placeS1.2.1 placeS1.2.2.1).getD placeDflt

/-- The match result returned for B1. -/
def fullFillRes : MatchResult := placeB1.1.toOption.getD ⟨[], false, none⟩

/-- The in-memory book after the full fill. -/
def fullFillBook : OrderBook := placeB1.2.1

/-- The durable state after the full fill. -/
def fullFillDB : DB := placeB1.2.2.1

/-- C1, code bug.  In the spec's scenario 1 the Matcher reports
`OrderFilled = true` for taker B1, but because `matchBuy` returns on the
fully-filled path without writing `o.Remaining = 0`, `updateMatchedOrders`
reuses the stale in-memory value: B1's durable row after commit has
`remaining = 1` and `status = OPEN` instead of the claimed `remaining = 0`,
`status = FILLED` (the maker row S1 is correctly FILLED). -/
theorem c1_filled_taker_row_stays_open :
    fullFillRes.OrderFilled = true ∧
    fullFillRes.Trades = [⟨"B1", "S1", 100, 1⟩] ∧
    (fullFillDB.orders.find? (fun r => r.id == "B1")).map (fun r => (r.remaining, r.status)) =
      some (1, "OPEN") ∧
    (fullFillDB.orders.find? (fun r => r.id == "S1")).map (fun r => (r.remaining, r.status)) =
      some (0, "FILLED") := by
  decide

/-- C2, code bug.  `handleCancel` replies `true` whenever the transaction
commits, even for an id that no order ever had (first conjunct: state is
unchanged and the reply is `true`, where the claim requires `false`) and for
an order whose durable status is terminal FILLED (second conjunct). -/
theorem c2_cancel_unknown_or_terminal_replies_true :
    handleCancel emptyDB NewOrderBook "deadbeef" = some (true, emptyDB, NewOrderBook) ∧
    handleCancel fullFillDB NewOrderBook "S1" = some (true, fullFillDB, NewOrderBook) := by
  decide

/-- C3, code bug.  After the full fill of scenario 1 the ask side is empty
(maker S1 was fully consumed and its level removed), yet `ordersByID` still
holds S1's handle: the matcher pops filled makers from their queue without
unregistering the id-handle, contradicting the invariant — and the repo's own
`TestFullFill`, which asserts that neither order remains in `ordersByID`. -/
theorem c3_filled_maker_keeps_dangling_handle :
    fullFillBook.askPrices = [] ∧
    fullFillBook.asks = [] ∧
    lookupA fullFillBook.ordersByID "S1" = some ⟨.sell, 100, 0⟩ := by
  decide

/-- C10, code bug.  Cancelling the fully-filled maker S1 after the match of
scenario 1 dereferences its removed price level: the dangling handle points at
price 100 on the ask side, `ob.asks[100]` is the map's zero value `nil`, and
`lvl.orders.Remove` panics (modelled by `none`). -/
theorem c10_cancel_after_full_fill_panics :
    fullFillBook.CancelOrder "S1" = none := by
  decide

/-- Unfillable market order: BUY id=M1 qty=1 on an empty book. -/
def exM1 : Order := ⟨"M1", "u3", "BTC-USD", .buy, 0, 1, 1, true, 0⟩

/-- State after placing the market order M1 on an empty engine. -/
def placeM1 : Except String MatchResult × OrderBook × DB × List String :=
  (handlePlace exM1 NewOrderBook emptyDB).getD placeDflt

/-- C6, code bug.  The market order M1 never rests (the book after its Place
equals the empty book, so `best_bid` is none), but `handlePlace` upserts its
unfilled remainder with derived status OPEN, and the durable schema records no
market flag; a clean-shutdown Bootstrap therefore loads M1 as a resting limit
bid: the rebuilt book has `best_bid` at price 0 and an id-handle for M1,
violating restart equivalence. -/
theorem c6_market_remainder_rests_after_bootstrap :
    placeM1.2.1 = NewOrderBook ∧
    (placeM1.2.2.1.orders.find? (fun r => r.id == "M1")).map (fun r => (r.status, r.remaining)) =
      some ("OPEN", 1) ∧
    (Bootstrap placeM1.2.2.1 NewOrderBook "").bidPrices = [0] ∧
    lookupA (Bootstrap placeM1.2.2.1 NewOrderBook "").ordersByID "M1" = some ⟨.buy, 0, 0⟩ := by
  decide

/-- First order with id A1. -/
def exA1 : Order := ⟨"A1", "u1", "BTC-USD", .buy, 100, 1, 1, false, 0⟩

/-- Second, distinct order reusing id A1. -/
def exA1dup : Order := ⟨"A1", "u1", "BTC-USD", .buy, 100, 2, 2, false, 0⟩

/-- Book after adding A1 twice. -/
def dupBook : OrderBook := (NewOrderBook.AddOrder exA1).AddOrder exA1dup

/-- C7, counterexample.  `AddOrder` with an already-registered id does not
fail and does not leave the book unchanged: the level queue at price 100 now
holds two nodes for id A1, and the id-handle was overwritten to point at the
second node (`elem = 1`), leaving the first node queued without a handle. -/
theorem c7_duplicate_add_changes_book :
    dupBook ≠ NewOrderBook.AddOrder exA1 ∧
    (lookupA dupBook.bids 100).map (fun lvl => lvl.orders.length) = some 2 ∧
    lookupA dupBook.ordersByID "A1" = some ⟨.buy, 100, 1⟩ := by
  decide

/-- Zero-quantity limit order. -/
def exQ0 : Order := ⟨"Q0", "u1", "BTC-USD", .buy, 100, 0, 0, false, 0⟩

/-- C8, counterexample.  Placing a zero-quantity limit order yields no
validation error: the command reaches the Matcher, is reported fully filled,
and its row is durably upserted with status FILLED — the durable state is not
left unchanged. -/
theorem c8_zero_quantity_reaches_matcher :
    (handlePlace exQ0 NewOrderBook emptyDB).map (fun x => (x.1.toOption, x.2)) =
      some (some ⟨[], true, none⟩, NewOrderBook, UpsertOrder emptyDB exQ0, []) ∧
    (UpsertOrder emptyDB exQ0).orders.map (fun r => (r.id, r.status)) = [("Q0", "FILLED")] := by
  decide

/-- Resting maker with the lexicographically small id A1 (sell side). -/
def exMkA1 : Order := ⟨"A1", "u2", "BTC-USD", .sell, 100, 1, 1, false, 0⟩

/-- Taker with the lexicographically large id Z9. -/
def exTkZ9 : Order := ⟨"Z9", "u1", "BTC-USD", .buy, 100, 1, 1, false, 0⟩

/-- State after placing the maker A1. -/
def placeMkA1 : Except String MatchResult × OrderBook × DB × List String :=
  (handlePlace exMkA1 NewOrderBook emptyDB).getD placeDflt

/-- State after then placing the taker Z9, which trades against A1. -/
def placeTkZ9 : Except String MatchResult × OrderBook × DB × List String :=
  (handlePlace exTkZ9 placeMkA1.2.1 placeMkA1.2.2.1).getD placeDflt

/-- C9, counterexample.  Within the Place transaction for taker Z9 the row
locks are acquired in the order [Z9, A1, A1] — taker first inside
`persistTradesAndLedger`, then the maker again in `updateMatchedOrders` — which
is not ascending by id, since Z9 follows A1. -/
theorem c9_locks_not_ascending_by_id :
    placeTkZ9.2.2.2 = ["Z9", "A1", "A1"] ∧ strLe "Z9" "A1" = false := by
  decide


/-- Looking a key up after writing it yields the written value. -/
theorem lookupA_setA_self {α β : Type} [DecidableEq α] (m : List (α × β)) (k : α) (v : β) :
    lookupA (setA m k v) k = some v := by
  induction m with
  | nil => simp [setA, lookupA]
  | cons e rest ih =>
    obtain ⟨k0, v0⟩ := e
    by_cases hk : k0 = k
    · simp [setA, hk, lookupA]
    · simp [setA, hk, lookupA, ih]

/-- Total number of queue nodes held by a side's level map. -/
def sumLvls (m : List (Int × PriceLevel)) : Nat :=
  m.foldr (fun e acc => e.2.orders.length + acc) 0

/-- Node count of a cons cell. -/
theorem sumLvls_cons (k : Int) (v : PriceLevel) (rest : List (Int × PriceLevel)) :
    sumLvls ((k, v) :: rest) = v.orders.length + sumLvls rest := rfl

/-- Total number of queue nodes in the book. -/
def bookNodeCount (b : OrderBook) : Nat := sumLvls b.bids + sumLvls b.asks

/-- Appending a node to an existing level grows the side's node count by one. -/
theorem sumLvls_setA_found (m : List (Int × PriceLevel)) (k : Int) (lvl : PriceLevel) (n : QNode)
    (h : lookupA m k = some lvl) :
    sumLvls (setA m k { lvl with orders := lvl.orders ++ [n] }) = sumLvls m + 1 := by
  induction m with
  | nil => simp [lookupA] at h
  | cons e rest ih =>
    obtain ⟨k0, v0⟩ := e
    by_cases hk : k0 = k
    · rw [lookupA, if_pos hk] at h
      cases h
      rw [setA, if_pos hk, sumLvls_cons, sumLvls_cons]
      simp
      omega
    · rw [lookupA, if_neg hk] at h
      rw [setA, if_neg hk, sumLvls_cons, sumLvls_cons, ih h]
      omega

/-- Creating a fresh one-node level grows the side's node count by one. -/
theorem sumLvls_setA_new (m : List (Int × PriceLevel)) (k : Int) (p : Int) (n : QNode)
    (h : lookupA m k = none) :
    sumLvls (setA m k ⟨p, [n]⟩) = sumLvls m + 1 := by
  induction m with
  | nil => simp [setA, sumLvls]
  | cons e rest ih =>
    obtain ⟨k0, v0⟩ := e
    by_cases hk : k0 = k
    · rw [lookupA, if_pos hk] at h
      cases h
    · rw [lookupA, if_neg hk] at h
      rw [setA, if_neg hk, sumLvls_cons, sumLvls_cons, ih h]
      omega

/-- C7 (amended): `AddOrder` performs no duplicate check.  Called with an id
that is already registered, it does not fail: it enqueues one additional node
(the book's total node count grows by one, so the old node is still queued)
and overwrites the id-handle to point at the newly allocated node
`b.nextNode`. -/
theorem c7_amended_duplicate_add_overwrites (b : OrderBook) (o : Order) (r : OrderRef)
    (_hdup : lookupA b.ordersByID o.ID = some r) :
    lookupA (b.AddOrder o).ordersByID o.ID = some ⟨o.Side, o.Price, b.nextNode⟩ ∧
    bookNodeCount (b.AddOrder o) = bookNodeCount b + 1 := by
  cases hs : o.Side with
  | buy =>
    cases hl : lookupA b.bids o.Price with
    | some lvl =>
      unfold OrderBook.AddOrder
      rw [hs]
      simp only [hl]
      constructor
      · rw [lookupA_setA_self]
      · simp only [bookNodeCount]
        rw [sumLvls_setA_found b.bids o.Price lvl ⟨b.nextNode, o⟩ hl]
        omega
    | none =>
      unfold OrderBook.AddOrder
      rw [hs]
      simp only [hl]
      constructor
      · rw [lookupA_setA_self]
      · simp only [bookNodeCount]
        rw [sumLvls_setA_new b.bids o.Price o.Price ⟨b.nextNode, o⟩ hl]
        omega
  | sell =>
    cases hl : lookupA b.asks o.Price with
    | some lvl =>
      unfold OrderBook.AddOrder
      rw [hs]
      simp only [hl]
      constructor
      · rw [lookupA_setA_self]
      · simp only [bookNodeCount]
        rw [sumLvls_setA_found b.asks o.Price lvl ⟨b.nextNode, o⟩ hl]
        omega
    | none =>
      unfold OrderBook.AddOrder
      rw [hs]
      simp only [hl]
      constructor
      · rw [lookupA_setA_self]
      · simp only [bookNodeCount]
        rw [sumLvls_setA_new b.asks o.Price o.Price ⟨b.nextNode, o⟩ hl]
        omega

/-- Witness for the amended C7 theorem at the concrete duplicate-id input. -/
theorem c7_amended_witness :
    lookupA (NewOrderBook.AddOrder exA1).ordersByID "A1" = some ⟨.buy, 100, 0⟩ ∧
    (lookupA ((NewOrderBook.AddOrder exA1).AddOrder exA1dup).ordersByID "A1" =
       some ⟨.buy, 100, 1⟩ ∧
     bookNodeCount ((NewOrderBook.AddOrder exA1).AddOrder exA1dup) =
       bookNodeCount (NewOrderBook.AddOrder exA1) + 1) := by
  refine ⟨by decide, ?_⟩
  exact c7_amended_duplicate_add_overwrites (NewOrderBook.AddOrder exA1) exA1dup
    ⟨.buy, 100, 0⟩ (by decide)

/-- The matching loop exits immediately when the incoming remaining quantity
is not positive (`for remaining > 0`). -/
theorem matchCore_nonpos (tid : String) (stop : Int → Bool) (f : Nat) (r : Int)
    (s : SideState) (acc : List Trade) (h : r ≤ 0) :
    matchCore tid stop (f + 1) r s acc = some (acc, r, s) := by
  simp [matchCore, h]

/-- C8 (amended): no quantity or price validation happens in `Place` or
`handlePlace` (only a nil order and an empty cancel id are rejected by the
API).  An order whose remaining quantity is zero reaches the Matcher, is
reported fully filled with no trades, leaves the book untouched, and is
durably upserted (with derived status FILLED) rather than rejected. -/
theorem c8_amended_no_validation (o : Order) (b : OrderBook) (db : DB)
    (h : o.Remaining = 0) :
    handlePlace o b db = some (.ok ⟨[], true, none⟩, b, UpsertOrder db o, []) := by
  have hb : matchCore o.ID (buyStop o) ((flattenS ⟨b.asks, b.askPrices⟩).length + 2)
      0 ⟨b.asks, b.askPrices⟩ [] = some ([], 0, ⟨b.asks, b.askPrices⟩) :=
    matchCore_nonpos _ _ _ _ _ _ (le_refl 0)
  have hs : matchCore o.ID (sellStop o) ((flattenS ⟨b.bids, b.bidPrices⟩).length + 2)
      0 ⟨b.bids, b.bidPrices⟩ [] = some ([], 0, ⟨b.bids, b.bidPrices⟩) :=
    matchCore_nonpos _ _ _ _ _ _ (le_refl 0)
  have hsub : Submit o b = some (⟨[], true, none⟩, o, b) := by
    unfold Submit matchBuy matchSell
    cases o.Side <;> simp [h, hb, hs]
  unfold handlePlace
  rw [hsub]
  simp

/-- Witness for the amended C8 theorem at the zero-quantity order. -/
theorem c8_amended_witness :
    exQ0.Remaining = 0 ∧
    handlePlace exQ0 NewOrderBook emptyDB =
      some (.ok ⟨[], true, none⟩, NewOrderBook, UpsertOrder emptyDB exQ0, []) :=
  ⟨rfl, c8_amended_no_validation exQ0 NewOrderBook emptyDB rfl⟩

/-- The lock sequence the settlement loop actually produces: for each trade in
emission order, the taker's row first, then the maker's. -/
def tradeLockSeq (trades : List Trade) : List String :=
  trades.foldr (fun t acc => t.TakerOrderID :: t.MakerOrderID :: acc) []

/-- A successful `persistOne` appends exactly the taker id and then the maker
id to the lock log. -/
theorem persistOne_log (db : DB) (t : Trade) (log : List String) (db1 : DB)
    (log1 : List String) (h : persistOne db t log = .ok (db1, log1)) :
    log1 = log ++ [t.TakerOrderID, t.MakerOrderID] := by
  unfold persistOne at h
  dsimp only [] at h
  split at h
  · exact absurd h (by simp)
  · split at h
    · exact absurd h (by simp)
    · simp only [Except.ok.injEq, Prod.mk.injEq] at h
      exact h.2.symm

/-- The lock log accumulated by `persistLoop` extends the incoming log by the
taker-then-maker pairs of the processed trades, in emission order. -/
theorem persistLoop_log : ∀ (trades : List Trade) (db : DB) (log : List String)
    (db2 : DB) (log2 : List String),
    persistLoop db log trades = .ok (db2, log2) →
    log2 = log ++ tradeLockSeq trades := by
  intro trades
  induction trades with
  | nil =>
    intro db log db2 log2 h
    simp only [persistLoop, Except.ok.injEq, Prod.mk.injEq] at h
    simp [tradeLockSeq, h.2.symm]
  | cons t rest ih =>
    intro db log db2 log2 h
    simp only [persistLoop] at h
    cases hp : persistOne db t log with
    | error e => rw [hp] at h; exact absurd h (by simp)
    | ok pr =>
      rw [hp] at h
      have hlog := persistOne_log db t log pr.1 pr.2 (by rw [hp])
      have h2 := ih pr.1 pr.2 db2 log2 h
      rw [h2, hlog, tradeLockSeq]
      simp [tradeLockSeq]

/-- C9 (amended): within one Place transaction the settlement loop acquires
the `FOR UPDATE` row locks per trade in emission order, taker first and maker
second (and `updateMatchedOrders` then locks each non-taker touched order once
more, in map-iteration order); the sequence is not ascending by order id. -/
theorem c9_amended_locks_in_trade_order (db : DB) (trades : List Trade)
    (db2 : DB) (log : List String)
    (h : persistTradesAndLedger db trades = .ok (db2, log)) :
    log = tradeLockSeq trades := by
  have := persistLoop_log trades db [] db2 log h
  simpa using this

/-- Durable rows backing the concrete C9 witness: maker A1 and taker Z9. -/
def c9wDB : DB :=
  ⟨[⟨"A1", "u2", "BTC-USD", "SELL", 100, 1, 1, "OPEN", 0⟩,
    ⟨"Z9", "u1", "BTC-USD", "BUY", 100, 1, 1, "OPEN", 1⟩], [], [], [], [], 2⟩

/-- The single trade of the C9 witness. -/
def c9wTrades : List Trade := [⟨"Z9", "A1", 100, 1⟩]

/-- Computed outcome of persisting the C9 witness trade. -/
def c9wOut : DB × List String :=
  (persistTradesAndLedger c9wDB c9wTrades).toOption.getD (c9wDB, [])

/-- Witness for the amended C9 theorem at the concrete trade. -/
theorem c9_amended_locks_witness :
    persistTradesAndLedger c9wDB c9wTrades = .ok (c9wOut.1, c9wOut.2) ∧
    c9wOut.2 = ["Z9", "A1"] := by
  constructor
  · rfl
  · have h := c9_amended_locks_in_trade_order c9wDB c9wTrades c9wOut.1 c9wOut.2 rfl
    rw [h]
    decide

/-- Looking up a different key is unaffected by a write. -/
theorem lookupA_setA_ne {α β : Type} [DecidableEq α] (m : List (α × β)) (k q : α) (v : β)
    (h : q ≠ k) : lookupA (setA m k v) q = lookupA m q := by
  induction m with
  | nil => simp [setA, lookupA, Ne.symm h]
  | cons e rest ih =>
    obtain ⟨k0, v0⟩ := e
    by_cases hk : k0 = k
    · subst hk
      simp [setA, lookupA, Ne.symm h]
    · by_cases hq : k0 = q
      · simp [setA, hk, lookupA, hq, h]
      · simp [setA, hk, lookupA, hq, ih]

/-- Looking up a different key is unaffected by a delete. -/
theorem lookupA_eraseA_ne {α β : Type} [DecidableEq α] (m : List (α × β)) (k q : α)
    (h : q ≠ k) : lookupA (eraseA m k) q = lookupA m q := by
  induction m with
  | nil => simp [eraseA]
  | cons e rest ih =>
    obtain ⟨k0, v0⟩ := e
    by_cases hk : k0 = k
    · subst hk
      simp [eraseA, lookupA, Ne.symm h]
    · by_cases hq : k0 = q
      · simp [eraseA, hk, lookupA, hq, h]
      · simp [eraseA, hk, lookupA, hq, ih]

/-- Specification-side definition (the priority walk of spec §4.2): consume
the flattened opposite side in order, trading `min(remaining, maker)` at each
resting price until the quantity is exhausted or the limit guard stops the
walk.  `matchCore_eq_spec` proves the Go loop equal to this walk. -/
def specMatch (takerId : String) (stop : Int → Bool) : List (Int × Order) → Int → List Trade
  | [], _ => []
  | (p, m) :: rest, remaining =>
    if remaining ≤ 0 then []
    else if stop p then []
    else
      let q := engineMin remaining m.Remaining
      ⟨takerId, m.ID, p, q⟩ ::
        (if 0 < remaining - q then specMatch takerId stop rest (remaining - q) else [])

/-- The walk yields nothing once the remaining quantity is exhausted. -/
theorem specMatch_nonpos (tid : String) (stop : Int → Bool) (flat : List (Int × Order))
    (r : Int) (h : r ≤ 0) : specMatch tid stop flat r = [] := by
  cases flat with
  | nil => rfl
  | cons pm rest => obtain ⟨p, m⟩ := pm; simp [specMatch, h]

/-- The guarded continuation of the walk equals the unguarded one. -/
theorem specMatch_if_collapse (tid : String) (stop : Int → Bool) (flat : List (Int × Order))
    (r : Int) : (if 0 < r then specMatch tid stop flat r else []) = specMatch tid stop flat r := by
  by_cases h : 0 < r
  · simp [h]
  · simp [h, specMatch_nonpos tid stop flat r (by omega)]

/-- Boolean all-distinct check on a list. -/
def distinctB {α : Type} [DecidableEq α] : List α → Bool
  | [] => true
  | x :: rest => rest.all (fun y => decide (x ≠ y)) && distinctB rest

/-- Boolean strict ascending check. -/
def sortedAscB : List Int → Bool
  | [] => true
  | [_] => true
  | x :: y :: rest => decide (x < y) && sortedAscB (y :: rest)

/-- Boolean strict descending check. -/
def sortedDescB : List Int → Bool
  | [] => true
  | [_] => true
  | x :: y :: rest => decide (y < x) && sortedDescB (y :: rest)

/-- The level registered for a price is keyed consistently and non-empty. -/
def levelOkB (m : List (Int × PriceLevel)) (p : Int) : Bool :=
  match lookupA m p with
  | some lvl => lvl.price == p && !lvl.orders.isEmpty
  | none => false

/-- Well-formedness of one side: distinct prices, each backed by a consistent
non-empty level. -/
def WFS (s : SideState) : Prop :=
  distinctB s.prices = true ∧ ∀ p ∈ s.prices, levelOkB s.levels p = true

/-- Well-formedness of the whole book: both sides well-formed, ask prices
strictly ascending, bid prices strictly descending. -/
def WFBook (b : OrderBook) : Prop :=
  WFS ⟨b.asks, b.askPrices⟩ ∧ WFS ⟨b.bids, b.bidPrices⟩ ∧
  sortedAscB b.askPrices = true ∧ sortedDescB b.bidPrices = true

/-- Unpacking of `levelOkB`. -/
theorem levelOkB_elim (m : List (Int × PriceLevel)) (p : Int) (h : levelOkB m p = true) :
    ∃ lvl, lookupA m p = some lvl ∧ lvl.price = p ∧ lvl.orders ≠ [] := by
  unfold levelOkB at h
  cases hl : lookupA m p with
  | none => rw [hl] at h; exact absurd h (by simp)
  | some lvl =>
    rw [hl] at h
    simp only [Bool.and_eq_true, beq_iff_eq, Bool.not_eq_true', List.isEmpty_eq_false] at h
    exact ⟨lvl, rfl, h.1, h.2⟩

/-- Unpacking of `distinctB` at a cons cell. -/
theorem distinctB_cons (x : Int) (l : List Int) (h : distinctB (x :: l) = true) :
    (∀ y ∈ l, x ≠ y) ∧ distinctB l = true := by
  simp only [distinctB, Bool.and_eq_true, List.all_eq_true, decide_eq_true_eq] at h
  exact h

/-- Flattening an empty price vector. -/
theorem flattenS_nil (m : List (Int × PriceLevel)) : flattenS ⟨m, []⟩ = [] := rfl

/-- Flattening peels the best price's level entries. -/
theorem flattenS_cons (m : List (Int × PriceLevel)) (p : Int) (ps : List Int) :
    flattenS ⟨m, p :: ps⟩ = levelEntries m p ++ flattenS ⟨m, ps⟩ := rfl

/-- Flattening only depends on the lookups of the listed prices. -/
theorem flattenS_congr (m1 m2 : List (Int × PriceLevel)) (ps : List Int)
    (h : ∀ q ∈ ps, lookupA m1 q = lookupA m2 q) :
    flattenS ⟨m1, ps⟩ = flattenS ⟨m2, ps⟩ := by
  induction ps with
  | nil => rfl
  | cons p rest ih =>
    rw [flattenS_cons, flattenS_cons, ih (fun q hq => h q (List.mem_cons_of_mem _ hq))]
    unfold levelEntries
    rw [h p (List.mem_cons_self p rest)]

/-- `levelOkB` only depends on the lookup of the price. -/
theorem levelOkB_congr (m1 m2 : List (Int × PriceLevel)) (p : Int)
    (h : lookupA m1 p = lookupA m2 p) : levelOkB m1 p = levelOkB m2 p := by
  unfold levelOkB
  rw [h]

/-- Step equation of the matching loop: the maker is fully consumed and was
alone at its level, so the level is removed along with its price entry. -/
theorem matchCore_step_last (tid : String) (stop : Int → Bool) (f : Nat) (remaining : Int)
    (m : List (Int × PriceLevel)) (p : Int) (ps : List Int) (acc : List Trade)
    (lvl : PriceLevel) (n : QNode)
    (hr : ¬ remaining ≤ 0) (hl : lookupA m p = some lvl) (hstop : ¬ stop lvl.price = true)
    (hord : lvl.orders = [n])
    (hm : n.order.Remaining - engineMin remaining n.order.Remaining = 0) :
    matchCore tid stop (f + 1) remaining ⟨m, p :: ps⟩ acc =
      matchCore tid stop f (remaining - engineMin remaining n.order.Remaining)
        ⟨eraseA (setA m p { lvl with orders := [] }) lvl.price,
         removeFirst (p :: ps) lvl.price⟩
        (acc ++ [⟨tid, n.order.ID, lvl.price, engineMin remaining n.order.Remaining⟩]) := by
  simp [matchCore, hr, hl, hstop, hord, hm]

/-- Step equation of the matching loop: the maker is fully consumed but other
orders remain queued at the level, so only the head node is popped. -/
theorem matchCore_step_pop (tid : String) (stop : Int → Bool) (f : Nat) (remaining : Int)
    (m : List (Int × PriceLevel)) (p : Int) (ps : List Int) (acc : List Trade)
    (lvl : PriceLevel) (n : QNode) (ns : List QNode)
    (hr : ¬ remaining ≤ 0) (hl : lookupA m p = some lvl) (hstop : ¬ stop lvl.price = true)
    (hord : lvl.orders = n :: ns) (hns : ns ≠ [])
    (hm : n.order.Remaining - engineMin remaining n.order.Remaining = 0) :
    matchCore tid stop (f + 1) remaining ⟨m, p :: ps⟩ acc =
      matchCore tid stop f (remaining - engineMin remaining n.order.Remaining)
        ⟨setA m p { lvl with orders := ns }, p :: ps⟩
        (acc ++ [⟨tid, n.order.ID, lvl.price, engineMin remaining n.order.Remaining⟩]) := by
  have hns2 : ns.isEmpty = false := by cases ns with
    | nil => exact absurd rfl hns
    | cons a l => rfl
  simp [matchCore, hr, hl, hstop, hord, hm, hns2]

/-- Step equation of the matching loop: the maker is only partially consumed
(so the incoming quantity is exhausted); its remaining quantity is decremented
in place at the head of the queue. -/
theorem matchCore_step_partial (tid : String) (stop : Int → Bool) (f : Nat) (remaining : Int)
    (m : List (Int × PriceLevel)) (p : Int) (ps : List Int) (acc : List Trade)
    (lvl : PriceLevel) (n : QNode) (ns : List QNode)
    (hr : ¬ remaining ≤ 0) (hl : lookupA m p = some lvl) (hstop : ¬ stop lvl.price = true)
    (hord : lvl.orders = n :: ns)
    (hm : ¬ n.order.Remaining - engineMin remaining n.order.Remaining = 0) :
    matchCore tid stop (f + 1) remaining ⟨m, p :: ps⟩ acc =
      matchCore tid stop f (remaining - engineMin remaining n.order.Remaining)
        ⟨setA m p { lvl with orders :=
            { n with order := { n.order with
                Remaining := n.order.Remaining - engineMin remaining n.order.Remaining } } :: ns },
         p :: ps⟩
        (acc ++ [⟨tid, n.order.ID, lvl.price, engineMin remaining n.order.Remaining⟩]) := by
  simp [matchCore, hr, hl, hstop, hord, hm]

/-- Exit equation of the matching loop: the limit guard stops the walk. -/
theorem matchCore_step_stop (tid : String) (stop : Int → Bool) (f : Nat) (remaining : Int)
    (m : List (Int × PriceLevel)) (p : Int) (ps : List Int) (acc : List Trade)
    (lvl : PriceLevel)
    (hr : ¬ remaining ≤ 0) (hl : lookupA m p = some lvl) (hstop : stop lvl.price = true) :
    matchCore tid stop (f + 1) remaining ⟨m, p :: ps⟩ acc = some (acc, remaining, ⟨m, p :: ps⟩) := by
  simp [matchCore, hr, hl, hstop]

/-- Exit equation of the matching loop: the opposite side is exhausted. -/
theorem matchCore_step_empty (tid : String) (stop : Int → Bool) (f : Nat) (remaining : Int)
    (m : List (Int × PriceLevel)) (acc : List Trade) (hr : ¬ remaining ≤ 0) :
    matchCore tid stop (f + 1) remaining ⟨m, []⟩ acc = some (acc, remaining, ⟨m, []⟩) := by
  simp [matchCore, hr]

/-- The Go matching loop computes exactly the specification-side priority walk
over the flattened opposite side, given a well-formed side and the fuel bound
passed by `Submit`. -/
theorem matchCore_eq_spec (tid : String) (stop : Int → Bool) :
    ∀ (fuel : Nat) (remaining : Int) (m : List (Int × PriceLevel)) (ps : List Int)
      (acc : List Trade),
      WFS ⟨m, ps⟩ → (flattenS ⟨m, ps⟩).length + 2 ≤ fuel →
      ∃ rem2 s2, matchCore tid stop fuel remaining ⟨m, ps⟩ acc =
        some (acc ++ specMatch tid stop (flattenS ⟨m, ps⟩) remaining, rem2, s2) := by
  intro fuel
  induction fuel with
  | zero => intro r m ps acc _ hf; exact absurd hf (by omega)
  | succ f ih =>
    intro remaining m ps acc hwf hfuel
    by_cases hr : remaining ≤ 0
    · refine ⟨remaining, ⟨m, ps⟩, ?_⟩
      rw [matchCore_nonpos tid stop f remaining ⟨m, ps⟩ acc hr,
          specMatch_nonpos tid stop _ _ hr, List.append_nil]
    · cases ps with
      | nil =>
        refine ⟨remaining, ⟨m, []⟩, ?_⟩
        rw [matchCore_step_empty tid stop f remaining m acc hr, flattenS_nil]
        simp [specMatch]
      | cons p ps' =>
        obtain ⟨lvl, hl, hprice, hne⟩ :=
          levelOkB_elim m p (hwf.2 p (List.mem_cons_self p ps'))
        obtain ⟨hnodup, hdrest⟩ := distinctB_cons p ps' hwf.1
        cases hord : lvl.orders with
        | nil => exact absurd hord hne
        | cons n ns =>
          have hflat : flattenS ⟨m, p :: ps'⟩ =
              (lvl.price, n.order) ::
                (ns.map (fun x => (lvl.price, x.order)) ++ flattenS ⟨m, ps'⟩) := by
            rw [flattenS_cons]
            unfold levelEntries
            rw [hl]
            simp [hord]
          have hwfrest : WFS ⟨m, ps'⟩ :=
            ⟨hdrest, fun r hrr => hwf.2 r (List.mem_cons_of_mem p hrr)⟩
          by_cases hstop : stop lvl.price = true
          · refine ⟨remaining, ⟨m, p :: ps'⟩, ?_⟩
            rw [matchCore_step_stop tid stop f remaining m p ps' acc lvl hr hl hstop, hflat]
            simp [specMatch, hr, hstop]
          · have hspec : specMatch tid stop (flattenS ⟨m, p :: ps'⟩) remaining =
                ⟨tid, n.order.ID, lvl.price, engineMin remaining n.order.Remaining⟩ ::
                  specMatch tid stop
                    (ns.map (fun x => (lvl.price, x.order)) ++ flattenS ⟨m, ps'⟩)
                    (remaining - engineMin remaining n.order.Remaining) := by
              rw [hflat]
              simp only [specMatch, if_neg hr, if_neg hstop]
              rw [specMatch_if_collapse]
            by_cases hm : n.order.Remaining - engineMin remaining n.order.Remaining = 0
            · by_cases hns : ns = []
              · subst hns
                have hstep := matchCore_step_last tid stop f remaining m p ps' acc lvl n
                  hr hl hstop hord hm
                have hcong : ∀ r ∈ ps',
                    lookupA (eraseA (setA m p { lvl with orders := ([] : List QNode) }) lvl.price) r =
                      lookupA m r := by
                  intro r hrr
                  have hrp : r ≠ p := fun hh => (hnodup r hrr) hh.symm
                  rw [hprice, lookupA_eraseA_ne _ _ _ hrp, lookupA_setA_ne _ _ _ _ hrp]
                have hrem : removeFirst (p :: ps') lvl.price = ps' := by
                  rw [hprice]
                  simp [removeFirst]
                have hflat2 : flattenS ⟨eraseA (setA m p { lvl with orders := ([] : List QNode) }) lvl.price, ps'⟩ =
                    flattenS ⟨m, ps'⟩ := flattenS_congr _ _ _ hcong
                have hwf2 : WFS ⟨eraseA (setA m p { lvl with orders := ([] : List QNode) }) lvl.price, ps'⟩ := by
                  refine ⟨hdrest, fun r hrr => ?_⟩
                  rw [levelOkB_congr _ m r (hcong r hrr)]
                  exact hwf.2 r (List.mem_cons_of_mem p hrr)
                have hfuel2 : (flattenS ⟨eraseA (setA m p { lvl with orders := ([] : List QNode) }) lvl.price, ps'⟩).length + 2 ≤ f := by
                  rw [hflat2]
                  have : (flattenS ⟨m, p :: ps'⟩).length = (flattenS ⟨m, ps'⟩).length + 1 := by
                    rw [hflat]
                    simp
                  omega
                obtain ⟨rem2, s2, heq⟩ := ih (remaining - engineMin remaining n.order.Remaining)
                  (eraseA (setA m p { lvl with orders := ([] : List QNode) }) lvl.price)
                  ps' (acc ++ [⟨tid, n.order.ID, lvl.price, engineMin remaining n.order.Remaining⟩])
                  hwf2 hfuel2
                refine ⟨rem2, s2, ?_⟩
                rw [hstep, hrem, heq, hflat2, hspec]
                simp
              · have hstep := matchCore_step_pop tid stop f remaining m p ps' acc lvl n ns
                  hr hl hstop hord hns hm
                have hcong : ∀ r ∈ ps',
                    lookupA (setA m p { lvl with orders := ns }) r = lookupA m r := by
                  intro r hrr
                  have hrp : r ≠ p := fun hh => (hnodup r hrr) hh.symm
                  rw [lookupA_setA_ne _ _ _ _ hrp]
                have hflat2 : flattenS ⟨setA m p { lvl with orders := ns }, p :: ps'⟩ =
                    ns.map (fun x => (lvl.price, x.order)) ++ flattenS ⟨m, ps'⟩ := by
                  rw [flattenS_cons]
                  unfold levelEntries
                  rw [lookupA_setA_self]
                  rw [flattenS_congr _ m _ hcong]
                have hwf2 : WFS ⟨setA m p { lvl with orders := ns }, p :: ps'⟩ := by
                  refine ⟨hwf.1, fun r hrr => ?_⟩
                  rcases List.mem_cons.1 hrr with hrp | hrr'
                  · subst hrp
                    unfold levelOkB
                    rw [lookupA_setA_self]
                    have : ns.isEmpty = false := by
                      cases ns with
                      | nil => exact absurd rfl hns
                      | cons a l => rfl
                    simp [hprice, this]
                  · rw [levelOkB_congr _ m r (hcong r hrr')]
                    exact hwf.2 r (List.mem_cons_of_mem p hrr')
                have hfuel2 : (flattenS ⟨setA m p { lvl with orders := ns }, p :: ps'⟩).length + 2 ≤ f := by
                  rw [hflat2]
                  have : (flattenS ⟨m, p :: ps'⟩).length =
                      (ns.map (fun x => (lvl.price, x.order)) ++ flattenS ⟨m, ps'⟩).length + 1 := by
                    rw [hflat]
                    simp
                  omega
                obtain ⟨rem2, s2, heq⟩ := ih (remaining - engineMin remaining n.order.Remaining)
                  (setA m p { lvl with orders := ns }) (p :: ps')
                  (acc ++ [⟨tid, n.order.ID, lvl.price, engineMin remaining n.order.Remaining⟩])
                  hwf2 hfuel2
                refine ⟨rem2, s2, ?_⟩
                rw [hstep, heq, hflat2, hspec]
                simp
            · -- partial fill of the maker: the incoming quantity is exhausted
              have hqr : engineMin remaining n.order.Remaining = remaining := by
                by_cases hlt : remaining < n.order.Remaining
                · simp [engineMin, hlt]
                · exfalso
                  apply hm
                  simp [engineMin, hlt]
              have hstep := matchCore_step_partial tid stop f remaining m p ps' acc lvl n ns
                hr hl hstop hord hm
              have hf1 : 1 ≤ f := by
                omega
              obtain ⟨g, hg⟩ : ∃ g, f = g + 1 := ⟨f - 1, by omega⟩
              have hfin : matchCore tid stop (f + 1) remaining ⟨m, p :: ps'⟩ acc =
                  some (acc ++ specMatch tid stop (flattenS ⟨m, p :: ps'⟩) remaining,
                    remaining - engineMin remaining n.order.Remaining,
                    ⟨setA m p { lvl with orders :=
                        { n with order := { n.order with
                            Remaining := n.order.Remaining -
                              engineMin remaining n.order.Remaining } } :: ns },
                     p :: ps'⟩) := by
                rw [hstep, hg]
                rw [matchCore_nonpos tid stop g
                  (remaining - engineMin remaining n.order.Remaining) _ _ (by omega)]
                rw [hspec]
                rw [specMatch_nonpos tid stop _ _ (by omega)]
              exact ⟨_, _, hfin⟩

/-- Every trade of the specification walk passes the limit guard and its
(price, maker) pair occurs in the flattened opposite side — the trade's price
is the maker level's resting price. -/
theorem specMatch_mem (tid : String) (stop : Int → Bool) :
    ∀ (flat : List (Int × Order)) (r : Int) (t : Trade), t ∈ specMatch tid stop flat r →
      stop t.Price = false ∧ ∃ mk, (t.Price, mk) ∈ flat ∧ mk.ID = t.MakerOrderID := by
  intro flat
  induction flat with
  | nil => intro r t ht; simp [specMatch] at ht
  | cons pm rest ih =>
    obtain ⟨pp, mm⟩ := pm
    intro r t ht
    by_cases hr : r ≤ 0
    · simp [specMatch, hr] at ht
    · by_cases hstop : stop pp = true
      · simp [specMatch, hr, hstop] at ht
      · rw [specMatch, if_neg hr, if_neg hstop] at ht
        dsimp only [] at ht
        rw [specMatch_if_collapse] at ht
        rcases List.mem_cons.1 ht with hhead | htail
        · subst hhead
          refine ⟨by simpa using hstop, mm, List.mem_cons_self _ _, rfl⟩
        · obtain ⟨hstop2, mk, hmem, hid⟩ := ih _ t htail
          exact ⟨hstop2, mk, List.mem_cons_of_mem _ hmem, hid⟩

/-- The flattened opposite side a taker matches against. -/
def flattenOpp (o : Order) (b : OrderBook) : List (Int × Order) :=
  match o.Side with
  | .buy => flattenS ⟨b.asks, b.askPrices⟩
  | .sell => flattenS ⟨b.bids, b.bidPrices⟩

/-- Specification-side trades of a submission: the priority walk over the
flattened opposite side under the side's limit guard. -/
def specTrades (o : Order) (b : OrderBook) : List Trade :=
  match o.Side with
  | .buy => specMatch o.ID (buyStop o) (flattenS ⟨b.asks, b.askPrices⟩) o.Remaining
  | .sell => specMatch o.ID (sellStop o) (flattenS ⟨b.bids, b.bidPrices⟩) o.Remaining

/-- C4: on a well-formed book, `Submit` emits exactly the trades of the
price–time-priority walk over the flattened opposite side (best price first,
FIFO within a level, partial fills keeping the head in place); every trade
executes at the maker level's resting price, and a limit taker never trades
beyond its own limit (a BUY never above `o.Price`, a SELL never below). -/
theorem c4_price_time_priority (o : Order) (b : OrderBook)
    (res : MatchResult) (o2 : Order) (b2 : OrderBook)
    (hwf : WFBook b) (h : Submit o b = some (res, o2, b2)) :
    res.Trades = specTrades o b ∧
    (∀ t ∈ res.Trades, o.IsMarket = false →
      (o.Side = .buy → t.Price ≤ o.Price) ∧ (o.Side = .sell → o.Price ≤ t.Price)) ∧
    (∀ t ∈ res.Trades, ∃ mk, (t.Price, mk) ∈ flattenOpp o b ∧ mk.ID = t.MakerOrderID) := by
  have htr : res.Trades = specTrades o b := by
    cases hside : o.Side with
    | buy =>
      obtain ⟨rem2, s2, heq⟩ := matchCore_eq_spec o.ID (buyStop o)
        ((flattenS ⟨b.asks, b.askPrices⟩).length + 2) o.Remaining b.asks b.askPrices []
        hwf.1 (le_refl _)
      unfold Submit matchBuy at h
      rw [hside] at h
      dsimp only [] at h
      rw [heq] at h
      dsimp only [] at h
      unfold specTrades
      rw [hside]
      dsimp only []
      split at h
      · simp only [Option.some.injEq, Prod.mk.injEq] at h
        rw [← h.1]
        simp
      · split at h
        all_goals
          simp only [Option.some.injEq, Prod.mk.injEq] at h
          rw [← h.1]
          simp
    | sell =>
      obtain ⟨rem2, s2, heq⟩ := matchCore_eq_spec o.ID (sellStop o)
        ((flattenS ⟨b.bids, b.bidPrices⟩).length + 2) o.Remaining b.bids b.bidPrices []
        hwf.2.1 (le_refl _)
      unfold Submit matchSell at h
      rw [hside] at h
      dsimp only [] at h
      rw [heq] at h
      dsimp only [] at h
      unfold specTrades
      rw [hside]
      dsimp only []
      split at h
      · simp only [Option.some.injEq, Prod.mk.injEq] at h
        rw [← h.1]
        simp
      · split at h
        all_goals
          simp only [Option.some.injEq, Prod.mk.injEq] at h
          rw [← h.1]
          simp
  refine ⟨htr, ?_, ?_⟩
  · intro t ht hmkt
    rw [htr] at ht
    cases hside : o.Side with
    | buy =>
      unfold specTrades at ht
      rw [hside] at ht
      have hm := (specMatch_mem o.ID (buyStop o) _ _ t ht).1
      unfold buyStop at hm
      rw [hmkt] at hm
      simp at hm
      constructor
      · intro _
        exact hm
      · intro hc
        exact absurd hc (by decide)
    | sell =>
      unfold specTrades at ht
      rw [hside] at ht
      have hm := (specMatch_mem o.ID (sellStop o) _ _ t ht).1
      unfold sellStop at hm
      rw [hmkt] at hm
      simp at hm
      constructor
      · intro hc
        exact absurd hc (by decide)
      · intro _
        exact hm
  · intro t ht
    rw [htr] at ht
    cases hside : o.Side with
    | buy =>
      unfold specTrades at ht
      rw [hside] at ht
      have hm := (specMatch_mem o.ID (buyStop o) _ _ t ht).2
      unfold flattenOpp
      rw [hside]
      exact hm
    | sell =>
      unfold specTrades at ht
      rw [hside] at ht
      have hm := (specMatch_mem o.ID (sellStop o) _ _ t ht).2
      unfold flattenOpp
      rw [hside]
      exact hm

/-- Decidability of side well-formedness, for concrete witnesses. -/
instance instDecWFS (s : SideState) : Decidable (WFS s) :=
  inferInstanceAs (Decidable (distinctB s.prices = true ∧
    ∀ p ∈ s.prices, levelOkB s.levels p = true))

/-- Decidability of book well-formedness, for concrete witnesses. -/
instance instDecWFBook (b : OrderBook) : Decidable (WFBook b) :=
  inferInstanceAs (Decidable (WFS ⟨b.asks, b.askPrices⟩ ∧ WFS ⟨b.bids, b.bidPrices⟩ ∧
    sortedAscB b.askPrices = true ∧ sortedDescB b.bidPrices = true))

/-- Witness book for C4: asks 100 ← [S1 qty 1, S3 qty 3] and 105 ← [S2 qty 2]. -/
def c4wBook : OrderBook :=
  ((NewOrderBook.AddOrder ⟨"S1", "u2", "BTC-USD", .sell, 100, 1, 1, false, 0⟩).AddOrder
    ⟨"S2", "u2", "BTC-USD", .sell, 105, 2, 2, false, 0⟩).AddOrder
    ⟨"S3", "u4", "BTC-USD", .sell, 100, 3, 3, false, 0⟩

/-- Witness taker for C4: limit BUY at 104 for quantity 3. -/
def c4wTaker : Order := ⟨"T1", "u1", "BTC-USD", .buy, 104, 3, 3, false, 0⟩

/-- Computed outcome of the C4 witness submission. -/
def c4wOut : MatchResult × Order × OrderBook :=
  (Submit c4wTaker c4wBook).getD (⟨[], false, none⟩, c4wTaker, c4wBook)

/-- Witness for C4: the concrete book is well-formed and the submission's
trades equal the specification walk — S1 then S3 at price 100, FIFO, with the
105 level untouched because it is beyond the taker's limit. -/
theorem c4_price_time_priority_witness :
    WFBook c4wBook ∧
    c4wOut.1.Trades = specTrades c4wTaker c4wBook ∧
    c4wOut.1.Trades = [⟨"T1", "S1", 100, 1⟩, ⟨"T1", "S3", 100, 2⟩] := by
  refine ⟨by decide, ?_, by decide⟩
  exact (c4_price_time_priority c4wTaker c4wBook c4wOut.1 c4wOut.2.1 c4wOut.2.2
    (by decide) (by rfl)).1

/-- Freshness of the durable state: every generated id recorded so far is
below the allocator `nextId`, and account ids are distinct.  This is the
invariant the deterministic-counter model of UUID generation maintains. -/
def FreshDB (db : DB) : Prop :=
  (∀ l ∈ db.ledgers, l.id < db.nextId ∧ l.refId < db.nextId) ∧
  (∀ e ∈ db.entries, e.ledgerId < db.nextId) ∧
  (∀ a ∈ db.accounts, a.id < db.nextId) ∧
  (∀ t ∈ db.trades, t.id < db.nextId) ∧
  distinctB (db.accounts.map (fun a => a.id)) = true

/-- Decidability of freshness, for concrete witnesses. -/
instance instDecFreshDB (db : DB) : Decidable (FreshDB db) :=
  inferInstanceAs (Decidable ((∀ l ∈ db.ledgers, l.id < db.nextId ∧ l.refId < db.nextId) ∧
    (∀ e ∈ db.entries, e.ledgerId < db.nextId) ∧
    (∀ a ∈ db.accounts, a.id < db.nextId) ∧
    (∀ t ∈ db.trades, t.id < db.nextId) ∧
    distinctB (db.accounts.map (fun a => a.id)) = true))

/-- The durable state `d2` extends `d1`: orders unchanged, the other tables
only appended, and every appended row referencing a generated id uses one at
or above `d1.nextId`. -/
def DBExtends (d1 d2 : DB) : Prop :=
  d2.orders = d1.orders ∧ d1.nextId ≤ d2.nextId ∧
  (∃ ts, d2.trades = d1.trades ++ ts ∧ ∀ x ∈ ts, d1.nextId ≤ x.id) ∧
  (∃ ls, d2.ledgers = d1.ledgers ++ ls ∧ ∀ x ∈ ls, d1.nextId ≤ x.id ∧ d1.nextId ≤ x.refId) ∧
  (∃ es, d2.entries = d1.entries ++ es ∧ ∀ x ∈ es, d1.nextId ≤ x.ledgerId) ∧
  (∃ acs, d2.accounts = d1.accounts ++ acs)

/-- Extension is reflexive. -/
theorem DBExtends_refl (d : DB) : DBExtends d d :=
  ⟨rfl, le_refl _, ⟨[], by simp⟩, ⟨[], by simp⟩, ⟨[], by simp⟩, ⟨[], by simp⟩⟩

/-- Extension is transitive. -/
theorem DBExtends_trans (d1 d2 d3 : DB) (h12 : DBExtends d1 d2) (h23 : DBExtends d2 d3) :
    DBExtends d1 d3 := by
  obtain ⟨ho, hn, ⟨ts, hts, hts2⟩, ⟨ls, hls, hls2⟩, ⟨es, hes, hes2⟩, ⟨acs, hacs⟩⟩ := h12
  obtain ⟨ho', hn', ⟨ts', hts', hts2'⟩, ⟨ls', hls', hls2'⟩, ⟨es', hes', hes2'⟩, ⟨acs', hacs'⟩⟩ := h23
  refine ⟨ho'.trans ho, hn.trans hn', ⟨ts ++ ts', ?_, ?_⟩, ⟨ls ++ ls', ?_, ?_⟩,
    ⟨es ++ es', ?_, ?_⟩, ⟨acs ++ acs', ?_⟩⟩
  · rw [hts', hts, List.append_assoc]
  · intro x hx
    rcases List.mem_append.1 hx with hx1 | hx2
    · exact hts2 x hx1
    · exact le_trans hn (hts2' x hx2)
  · rw [hls', hls, List.append_assoc]
  · intro x hx
    rcases List.mem_append.1 hx with hx1 | hx2
    · exact hls2 x hx1
    · exact ⟨le_trans hn (hls2' x hx2).1, le_trans hn (hls2' x hx2).2⟩
  · rw [hes', hes, List.append_assoc]
  · intro x hx
    rcases List.mem_append.1 hx with hx1 | hx2
    · exact hes2 x hx1
    · exact le_trans hn (hes2' x hx2)
  · rw [hacs', hacs, List.append_assoc]

/-- The (user, asset) key of an account id, via the durable accounts table. -/
def accountKey (db : DB) (aid : Nat) : Option (String × String) :=
  (db.accounts.find? (fun a => a.id == aid)).map (fun a => (a.userId, a.asset))

/-- The ledger headers referencing one trade id. -/
def headersFor (db : DB) (tid : Nat) : List Ledger :=
  db.ledgers.filter (fun l => l.refType == "trade" && l.refId == tid)

/-- The signed entries owned by one ledger header. -/
def entriesOf (db : DB) (lid : Nat) : List LedgerEntry :=
  db.entries.filter (fun e => e.ledgerId == lid)

/-- The signed sum, for one asset, of a set of ledger entries (the asset of an
entry is the asset of its account). -/
def assetSum (db : DB) (es : List LedgerEntry) (asset : String) : Int :=
  (es.filter (fun e => (accountKey db e.accountId).map Prod.snd = some asset)).foldr
    (fun e acc => e.amount + acc) 0

/-- The buyer and seller of a trade as the settlement code resolves them: the
taker's row decides — if the taker's side is BUY the taker's owner buys and
the maker's owner sells, otherwise the roles are swapped. -/
def buyerSellerOf (db : DB) (t : Trade) : Option (String × String) :=
  match GetOrderForUpdate db t.TakerOrderID, GetOrderForUpdate db t.MakerOrderID with
  | some tr, some mr =>
    some (if tr.side = "BUY" then (tr.userId, mr.userId) else (mr.userId, tr.userId))
  | _, _ => none

/-- Generic unpacking of `distinctB` at a cons cell. -/
theorem distinctB_cons_any {α : Type} [DecidableEq α] (x : α) (l : List α)
    (h : distinctB (x :: l) = true) : (∀ y ∈ l, x ≠ y) ∧ distinctB l = true := by
  simp only [distinctB, Bool.and_eq_true, List.all_eq_true, decide_eq_true_eq] at h
  exact h

/-- `find?` over an append scans the left part first. -/
theorem find?_append_first {α : Type} (l1 l2 : List α) (p : α → Bool) (x : α)
    (h : l1.find? p = some x) : (l1 ++ l2).find? p = some x := by
  induction l1 with
  | nil => simp [List.find?] at h
  | cons a rest ih =>
    by_cases hp : p a = true
    · rw [List.find?_cons_of_pos _ hp] at h
      rw [List.cons_append, List.find?_cons_of_pos _ hp]
      exact h
    · rw [List.find?_cons_of_neg _ hp] at h
      rw [List.cons_append, List.find?_cons_of_neg _ hp]
      exact ih h

/-- `find?` over an append falls through to the right part when the left part
has no match. -/
theorem find?_append_second {α : Type} (l1 l2 : List α) (p : α → Bool)
    (h : ∀ x ∈ l1, p x = false) : (l1 ++ l2).find? p = l2.find? p := by
  induction l1 with
  | nil => simp
  | cons a rest ih =>
    rw [List.cons_append, List.find?_cons_of_neg _ (by simp [h a (List.mem_cons_self a rest)])]
    exact ih (fun x hx => h x (List.mem_cons_of_mem a hx))

/-- With distinct account ids, finding a member account by its own id returns
that account. -/
theorem find?_by_id_of_mem (l : List Account) (acc : Account)
    (hd : distinctB (l.map (fun x => x.id)) = true) (hm : acc ∈ l) :
    l.find? (fun x => x.id == acc.id) = some acc := by
  induction l with
  | nil => cases hm
  | cons x rest ih =>
    have hd2 := distinctB_cons_any x.id (rest.map (fun y => y.id)) (by simpa using hd)
    rcases List.mem_cons.1 hm with hx | hrest
    · subst hx
      rw [List.find?_cons_of_pos _ (by simp)]
    · cases heq : (x.id == acc.id) with
      | true =>
        exfalso
        have : acc.id ∈ rest.map (fun y => y.id) := List.mem_map_of_mem _ hrest
        exact (hd2.1 acc.id this) (by simpa using heq)
      | false =>
        rw [List.find?_cons_of_neg _ (by simp [heq])]
        exact ih hd2.2 hrest

/-- An account resolution survives any append of further accounts. -/
theorem accountKey_append (d1 d2 : DB) (hacs : ∃ acs, d2.accounts = d1.accounts ++ acs)
    (aid : Nat) (k : String × String) (h : accountKey d1 aid = some k) :
    accountKey d2 aid = some k := by
  obtain ⟨acs, hd⟩ := hacs
  unfold accountKey at h ⊢
  cases hf : d1.accounts.find? (fun a => a.id == aid) with
  | none => rw [hf] at h; simp at h
  | some acc =>
    rw [hf] at h
    rw [hd, find?_append_first _ _ _ _ hf]
    exact h

/-- Appending a fresh element keeps a list distinct. -/
theorem distinctB_append_one {α : Type} [DecidableEq α] (l : List α) (y : α)
    (hd : distinctB l = true) (hy : ∀ x ∈ l, x ≠ y) : distinctB (l ++ [y]) = true := by
  induction l with
  | nil => simp [distinctB]
  | cons x rest ih =>
    have h2 := distinctB_cons_any x rest hd
    simp only [List.cons_append, distinctB, Bool.and_eq_true, List.all_eq_true,
      decide_eq_true_eq]
    refine ⟨?_, ih h2.2 (fun z hz => hy z (List.mem_cons_of_mem x hz))⟩
    intro z hz
    rcases List.mem_append.1 hz with h1 | h1
    · exact h2.1 z h1
    · simp only [List.mem_singleton] at h1
      subst h1
      exact hy x (List.mem_cons_self x rest)

/-- What `getOrCreateAccountID` guarantees: the returned id resolves to the
requested (user, asset), freshness is preserved, and only accounts may have
been appended. -/
theorem getOrCreate_spec (db : DB) (u a : String) (hf : FreshDB db) :
    accountKey (getOrCreateAccountID db u a).2 (getOrCreateAccountID db u a).1 = some (u, a) ∧
    FreshDB (getOrCreateAccountID db u a).2 ∧
    (getOrCreateAccountID db u a).1 < (getOrCreateAccountID db u a).2.nextId ∧
    db.nextId ≤ (getOrCreateAccountID db u a).2.nextId ∧
    (getOrCreateAccountID db u a).2.orders = db.orders ∧
    (getOrCreateAccountID db u a).2.trades = db.trades ∧
    (getOrCreateAccountID db u a).2.ledgers = db.ledgers ∧
    (getOrCreateAccountID db u a).2.entries = db.entries ∧
    (∃ acs, (getOrCreateAccountID db u a).2.accounts = db.accounts ++ acs) := by
  unfold getOrCreateAccountID
  cases hfind : db.accounts.find? (fun x => x.userId == u && x.asset == a) with
  | some acc =>
    dsimp only []
    have hmem : acc ∈ db.accounts := List.mem_of_find?_eq_some hfind
    have hpred := List.find?_some hfind
    simp only [Bool.and_eq_true, beq_iff_eq] at hpred
    have hid : db.accounts.find? (fun x => x.id == acc.id) = some acc :=
      find?_by_id_of_mem db.accounts acc hf.2.2.2.2 hmem
    refine ⟨?_, hf, hf.2.2.1 acc hmem, le_refl _, rfl, rfl, rfl, rfl, ⟨[], by simp⟩⟩
    unfold accountKey
    rw [hid]
    simp [hpred.1, hpred.2]
  | none =>
    dsimp only []
    have hold : ∀ x ∈ db.accounts, (x.id == db.nextId) = false := by
      intro x hx
      have := hf.2.2.1 x hx
      simp only [beq_eq_false_iff_ne, ne_eq]
      omega
    constructor
    · unfold accountKey
      dsimp only []
      rw [find?_append_second _ _ _ hold]
      simp [List.find?]
    constructor
    · unfold FreshDB
      dsimp only []
      refine ⟨?_, ?_, ?_, ?_, ?_⟩
      · intro l hl
        have := hf.1 l hl
        omega
      · intro e he
        have := hf.2.1 e he
        omega
      · intro x hx
        rcases List.mem_append.1 hx with h1 | h1
        · have := hf.2.2.1 x h1
          omega
        · simp only [List.mem_singleton] at h1
          subst h1
          dsimp only []
          omega
      · intro tr htr
        have := hf.2.2.2.1 tr htr
        omega
      · simp only [List.map_append]
        show distinctB (List.map (fun a => a.id) db.accounts ++ [db.nextId]) = true
        exact distinctB_append_one _ _ hf.2.2.2.2 (by
          intro x hx
          obtain ⟨acc0, hacc0, hid0⟩ := List.mem_map.1 hx
          have := hf.2.2.1 acc0 hacc0
          omega)
    refine ⟨by omega, by omega, rfl, rfl, rfl, rfl, ⟨[⟨db.nextId, u, a⟩], rfl⟩⟩

/-- The success-path result of `persistOne`, given the two order rows the
`FOR UPDATE` reads return.  `persistOne_eq` proves `persistOne` equal to it. -/
def persistOneOut (db : DB) (t : Trade) (takerRow makerRow : DBOrder) : DB :=
  let db1 : DB := { db with
    trades := db.trades ++ [⟨db.nextId, t.TakerOrderID, t.MakerOrderID, t.Price, t.Quantity⟩],
    nextId := db.nextId + 1 }
  let ledgerId := db1.nextId
  let db2 : DB := { db1 with
    ledgers := db1.ledgers ++ [⟨ledgerId, "trade", db.nextId⟩],
    nextId := db1.nextId + 1 }
  let notional := t.Price * t.Quantity
  let buyerUser := if takerRow.side = "BUY" then takerRow.userId else makerRow.userId
  let sellerUser := if takerRow.side = "BUY" then makerRow.userId else takerRow.userId
  let a1 := getOrCreateAccountID db2 buyerUser "USD"
  let a2 := getOrCreateAccountID a1.2 buyerUser "BTC"
  let a3 := getOrCreateAccountID a2.2 sellerUser "USD"
  let a4 := getOrCreateAccountID a3.2 sellerUser "BTC"
  let db3 := InsertLedgerEntry a4.2 ledgerId a1.1 (-notional)
  let db4 := InsertLedgerEntry db3 ledgerId a2.1 t.Quantity
  let db5 := InsertLedgerEntry db4 ledgerId a4.1 (-t.Quantity)
  InsertLedgerEntry db5 ledgerId a3.1 notional

/-- On rows that resolve, `persistOne` succeeds with `persistOneOut` and logs
the taker lock before the maker lock. -/
theorem persistOne_eq (db : DB) (t : Trade) (log : List String) (tr mr : DBOrder)
    (htr : GetOrderForUpdate db t.TakerOrderID = some tr)
    (hmr : GetOrderForUpdate db t.MakerOrderID = some mr) :
    persistOne db t log = .ok (persistOneOut db t tr mr, log ++ [t.TakerOrderID, t.MakerOrderID]) := by
  have htr2 : List.find? (fun r => r.id == t.TakerOrderID) db.orders = some tr := htr
  have hmr2 : List.find? (fun r => r.id == t.MakerOrderID) db.orders = some mr := hmr
  unfold persistOne persistOneOut GetOrderForUpdate
  dsimp only []
  rw [htr2, hmr2]

/-- The per-trade settlement contract: the durable trade row carries the
emitted trade's fields; exactly one ledger header in the final state
references it; that header owns exactly four signed entries — buyer debited
the notional in USD, buyer credited the quantity in BTC, seller debited the
quantity in BTC, seller credited the notional in USD — and the header's
entries sum to zero for every asset. -/
def PerTradeLedger (db0 dbf : DB) (t : Trade) (nt : DBTrade) : Prop :=
  nt.takerOrderId = t.TakerOrderID ∧ nt.makerOrderId = t.MakerOrderID ∧
  nt.price = t.Price ∧ nt.quantity = t.Quantity ∧
  ∃ lh bu su e1 e2 e3 e4,
    headersFor dbf nt.id = [lh] ∧
    buyerSellerOf db0 t = some (bu, su) ∧
    entriesOf dbf lh.id = [e1, e2, e3, e4] ∧
    accountKey dbf e1.accountId = some (bu, "USD") ∧ e1.amount = -(t.Price * t.Quantity) ∧
    accountKey dbf e2.accountId = some (bu, "BTC") ∧ e2.amount = t.Quantity ∧
    accountKey dbf e3.accountId = some (su, "BTC") ∧ e3.amount = -t.Quantity ∧
    accountKey dbf e4.accountId = some (su, "USD") ∧ e4.amount = t.Price * t.Quantity ∧
    (∀ asset, assetSum dbf (entriesOf dbf lh.id) asset = 0)

/-- Four entries of the buyer/seller double-entry shape sum to zero for every
asset. -/
theorem fourEntry_balance (dbf : DB) (bu su : String)
    (e1 e2 e3 e4 : LedgerEntry) (pq qty : Int)
    (k1 : accountKey dbf e1.accountId = some (bu, "USD")) (a1 : e1.amount = -pq)
    (k2 : accountKey dbf e2.accountId = some (bu, "BTC")) (a2 : e2.amount = qty)
    (k3 : accountKey dbf e3.accountId = some (su, "BTC")) (a3 : e3.amount = -qty)
    (k4 : accountKey dbf e4.accountId = some (su, "USD")) (a4 : e4.amount = pq) :
    ∀ asset, assetSum dbf [e1, e2, e3, e4] asset = 0 := by
  intro A
  unfold assetSum
  by_cases hU : A = "USD"
  · subst hU
    simp [List.filter, k1, k2, k3, k4, a1, a2, a3, a4]
  · by_cases hB : A = "BTC"
    · subst hB
      simp [List.filter, k1, k2, k3, k4, a1, a2, a3, a4]
    · simp [List.filter, k1, k2, k3, k4, Ne.symm hU, Ne.symm hB]

/-- Account lookups only depend on the accounts table. -/
theorem accountKey_congr (d d' : DB) (aid : Nat) (h : d'.accounts = d.accounts) :
    accountKey d' aid = accountKey d aid := by
  unfold accountKey
  rw [h]

/-- What one successful `persistOne` step guarantees about the durable state:
orders unchanged, exactly the new trade row appended, extension and freshness
preserved, and the per-trade ledger contract established. -/
theorem persistOne_spec (db : DB) (t : Trade) (tr mr : DBOrder)
    (hf : FreshDB db)
    (htr : GetOrderForUpdate db t.TakerOrderID = some tr)
    (hmr : GetOrderForUpdate db t.MakerOrderID = some mr) :
    (persistOneOut db t tr mr).orders = db.orders ∧
    (persistOneOut db t tr mr).trades = db.trades ++
      [⟨db.nextId, t.TakerOrderID, t.MakerOrderID, t.Price, t.Quantity⟩] ∧
    DBExtends db (persistOneOut db t tr mr) ∧
    FreshDB (persistOneOut db t tr mr) ∧
    db.nextId < (persistOneOut db t tr mr).nextId ∧
    PerTradeLedger db (persistOneOut db t tr mr) t
      ⟨db.nextId, t.TakerOrderID, t.MakerOrderID, t.Price, t.Quantity⟩ := by
  set nt : DBTrade := ⟨db.nextId, t.TakerOrderID, t.MakerOrderID, t.Price, t.Quantity⟩ with hnt
  set lh : Ledger := ⟨db.nextId + 1, "trade", db.nextId⟩ with hlh
  set d2 : DB :=
    ⟨db.orders, db.trades ++ [nt], db.ledgers ++ [lh], db.entries, db.accounts, db.nextId + 2⟩
    with hd2
  set bu : String := if tr.side = "BUY" then tr.userId else mr.userId with hbu
  set su : String := if tr.side = "BUY" then mr.userId else tr.userId with hsu
  set a1 := getOrCreateAccountID d2 bu "USD" with ha1
  set a2 := getOrCreateAccountID a1.2 bu "BTC" with ha2
  set a3 := getOrCreateAccountID a2.2 su "USD" with ha3
  set a4 := getOrCreateAccountID a3.2 su "BTC" with ha4
  have hfd2 : FreshDB d2 := by
    rw [hd2]
    refine ⟨?_, ?_, ?_, ?_, ?_⟩
    · intro l hl
      dsimp only [] at hl ⊢
      rcases List.mem_append.1 hl with h1 | h1
      · have := hf.1 l h1
        omega
      · simp only [List.mem_singleton] at h1
        subst h1
        rw [hlh]
        dsimp only []
        omega
    · intro e he
      dsimp only [] at he ⊢
      have := hf.2.1 e he
      omega
    · intro x hx
      dsimp only [] at hx ⊢
      have := hf.2.2.1 x hx
      omega
    · intro x hx
      dsimp only [] at hx ⊢
      rcases List.mem_append.1 hx with h1 | h1
      · have := hf.2.2.2.1 x h1
        omega
      · simp only [List.mem_singleton] at h1
        subst h1
        rw [hnt]
        dsimp only []
        omega
    · exact hf.2.2.2.2
  obtain ⟨A1key, A1fresh, A1lt, A1le, A1orders, A1trades, A1ledgers, A1entries, A1acs⟩ :=
    getOrCreate_spec d2 bu "USD" hfd2
  rw [← ha1] at A1key A1fresh A1lt A1le A1orders A1trades A1ledgers A1entries A1acs
  obtain ⟨A2key, A2fresh, A2lt, A2le, A2orders, A2trades, A2ledgers, A2entries, A2acs⟩ :=
    getOrCreate_spec a1.2 bu "BTC" A1fresh
  rw [← ha2] at A2key A2fresh A2lt A2le A2orders A2trades A2ledgers A2entries A2acs
  obtain ⟨A3key, A3fresh, A3lt, A3le, A3orders, A3trades, A3ledgers, A3entries, A3acs⟩ :=
    getOrCreate_spec a2.2 su "USD" A2fresh
  rw [← ha3] at A3key A3fresh A3lt A3le A3orders A3trades A3ledgers A3entries A3acs
  obtain ⟨A4key, A4fresh, A4lt, A4le, A4orders, A4trades, A4ledgers, A4entries, A4acs⟩ :=
    getOrCreate_spec a3.2 su "BTC" A3fresh
  rw [← ha4] at A4key A4fresh A4lt A4le A4orders A4trades A4ledgers A4entries A4acs
  set E1 : LedgerEntry := ⟨a4.2.nextId, db.nextId + 1, a1.1, -(t.Price * t.Quantity)⟩ with hE1
  set E2 : LedgerEntry := ⟨a4.2.nextId + 1, db.nextId + 1, a2.1, t.Quantity⟩ with hE2
  set E3 : LedgerEntry := ⟨a4.2.nextId + 2, db.nextId + 1, a4.1, -t.Quantity⟩ with hE3
  set E4 : LedgerEntry := ⟨a4.2.nextId + 3, db.nextId + 1, a3.1, t.Price * t.Quantity⟩ with hE4
  have hfinal : persistOneOut db t tr mr =
      ⟨a4.2.orders, a4.2.trades, a4.2.ledgers, a4.2.entries ++ [E1, E2, E3, E4],
       a4.2.accounts, a4.2.nextId + 4⟩ := by
    rw [hE1, hE2, hE3, hE4, ha4, ha3, ha2, ha1, hbu, hsu, hd2, hlh, hnt]
    unfold persistOneOut InsertLedgerEntry
    dsimp only []
    simp
  have hords : a4.2.orders = db.orders := by
    rw [A4orders, A3orders, A2orders, A1orders, hd2]
  have htrs : a4.2.trades = db.trades ++ [nt] := by
    rw [A4trades, A3trades, A2trades, A1trades, hd2]
  have hlgs : a4.2.ledgers = db.ledgers ++ [lh] := by
    rw [A4ledgers, A3ledgers, A2ledgers, A1ledgers, hd2]
  have hens : a4.2.entries = db.entries := by
    rw [A4entries, A3entries, A2entries, A1entries, hd2]
  have hnx : db.nextId + 2 ≤ a4.2.nextId := by
    have h1 : d2.nextId ≤ a1.2.nextId := A1le
    rw [hd2] at h1
    dsimp only [] at h1
    have h2 : a1.2.nextId ≤ a2.2.nextId := A2le
    have h3 : a2.2.nextId ≤ a3.2.nextId := A3le
    have h4 : a3.2.nextId ≤ a4.2.nextId := A4le
    omega
  have hacs14 : ∃ acs, a4.2.accounts = a1.2.accounts ++ acs := by
    obtain ⟨acsB, hacsB⟩ := A2acs
    obtain ⟨acsC, hacsC⟩ := A3acs
    obtain ⟨acsD, hacsD⟩ := A4acs
    exact ⟨acsB ++ acsC ++ acsD, by rw [hacsD, hacsC, hacsB]; simp⟩
  have hacs24 : ∃ acs, a4.2.accounts = a2.2.accounts ++ acs := by
    obtain ⟨acsC, hacsC⟩ := A3acs
    obtain ⟨acsD, hacsD⟩ := A4acs
    exact ⟨acsC ++ acsD, by rw [hacsD, hacsC]; simp⟩
  have hacs04 : ∃ acs, a4.2.accounts = db.accounts ++ acs := by
    obtain ⟨acsA, hacsA⟩ := A1acs
    obtain ⟨acsB, hacsB⟩ := hacs14
    refine ⟨acsA ++ acsB, ?_⟩
    rw [hacsB, hacsA, hd2]
    simp
  have hkey1 : accountKey a4.2 a1.1 = some (bu, "USD") :=
    accountKey_append a1.2 a4.2 hacs14 a1.1 (bu, "USD") A1key
  have hkey2 : accountKey a4.2 a2.1 = some (bu, "BTC") :=
    accountKey_append a2.2 a4.2 hacs24 a2.1 (bu, "BTC") A2key
  have hkey3 : accountKey a4.2 a3.1 = some (su, "USD") :=
    accountKey_append a3.2 a4.2 A4acs a3.1 (su, "USD") A3key
  have hkey4 : accountKey a4.2 a4.1 = some (su, "BTC") := A4key
  have hackey : ∀ aid, accountKey (persistOneOut db t tr mr) aid = accountKey a4.2 aid := by
    intro aid
    refine accountKey_congr a4.2 (persistOneOut db t tr mr) aid ?_
    rw [hfinal]
  have hbss : buyerSellerOf db t = some (bu, su) := by
    unfold buyerSellerOf
    rw [htr, hmr, hbu, hsu]
    by_cases hside : tr.side = "BUY" <;> simp [hside]
  refine ⟨?_, ?_, ?_, ?_, ?_, ?_⟩
  · rw [hfinal]
    exact hords
  · rw [hfinal]
    dsimp only []
    rw [htrs, hnt]
  · -- DBExtends db final
    refine ⟨?_, ?_, ⟨[nt], ?_, ?_⟩, ⟨[lh], ?_, ?_⟩, ⟨[E1, E2, E3, E4], ?_, ?_⟩, ?_⟩
    · rw [hfinal]
      exact hords
    · rw [hfinal]
      dsimp only []
      omega
    · rw [hfinal]
      dsimp only []
      rw [htrs]
    · intro x hx
      simp only [List.mem_singleton] at hx
      subst hx
      rw [hnt]
    · rw [hfinal]
      dsimp only []
      rw [hlgs]
    · intro x hx
      simp only [List.mem_singleton] at hx
      subst hx
      rw [hlh]
      dsimp only []
      exact ⟨by omega, by omega⟩
    · rw [hfinal]
      dsimp only []
      rw [hens]
    · intro x hx
      rw [hE1, hE2, hE3, hE4] at hx
      simp only [List.mem_cons, List.mem_singleton, List.not_mem_nil, or_false] at hx
      rcases hx with h | h | h | h <;> (subst h; dsimp only []; omega)
    · rw [hfinal]
      dsimp only []
      exact hacs04
  · -- FreshDB final
    rw [hfinal]
    refine ⟨?_, ?_, ?_, ?_, ?_⟩
    · intro l hl
      dsimp only [] at hl ⊢
      rw [hlgs] at hl
      rcases List.mem_append.1 hl with h1 | h1
      · have := hf.1 l h1
        omega
      · simp only [List.mem_singleton] at h1
        subst h1
        rw [hlh]
        dsimp only []
        omega
    · intro e he
      dsimp only [] at he ⊢
      rcases List.mem_append.1 he with h1 | h1
      · rw [hens] at h1
        have := hf.2.1 e h1
        omega
      · rw [hE1, hE2, hE3, hE4] at h1
        simp only [List.mem_cons, List.mem_singleton, List.not_mem_nil, or_false] at h1
        rcases h1 with h | h | h | h <;> (subst h; dsimp only []; omega)
    · intro x hx
      dsimp only [] at hx ⊢
      have := A4fresh.2.2.1 x hx
      omega
    · intro x hx
      dsimp only [] at hx ⊢
      rw [htrs] at hx
      rcases List.mem_append.1 hx with h1 | h1
      · have := hf.2.2.2.1 x h1
        omega
      · simp only [List.mem_singleton] at h1
        subst h1
        rw [hnt]
        dsimp only []
        omega
    · dsimp only []
      exact A4fresh.2.2.2.2
  · rw [hfinal]
    dsimp only []
    omega
  · -- PerTradeLedger
    have hheads : headersFor (persistOneOut db t tr mr) db.nextId = [lh] := by
      unfold headersFor
      rw [hfinal]
      dsimp only []
      rw [hlgs, List.filter_append]
      have hzero : db.ledgers.filter
          (fun l => l.refType == "trade" && l.refId == db.nextId) = [] := by
        rw [List.filter_eq_nil_iff]
        intro l hl
        have := (hf.1 l hl).2
        simp only [Bool.and_eq_true, beq_iff_eq, not_and]
        intro _
        omega
      rw [hzero, List.nil_append]
      rw [hlh]
      simp
    have hfen : (persistOneOut db t tr mr).entries = db.entries ++ [E1, E2, E3, E4] := by
      rw [hfinal]
      dsimp only []
      rw [hens]
    have hentf : entriesOf (persistOneOut db t tr mr) lh.id = [E1, E2, E3, E4] := by
      unfold entriesOf
      rw [hfen, List.filter_append]
      have hzero : db.entries.filter (fun e => e.ledgerId == lh.id) = [] := by
        rw [List.filter_eq_nil_iff]
        intro e he
        have := hf.2.1 e he
        rw [hlh]
        dsimp only []
        simp only [beq_iff_eq]
        omega
      rw [hzero, List.nil_append]
      rw [hE1, hE2, hE3, hE4, hlh]
      simp
    refine ⟨rfl, rfl, rfl, rfl, lh, bu, su, E1, E2, E3, E4, ?_, hbss, ?_, ?_, ?_, ?_, ?_, ?_,
      ?_, ?_, ?_, ?_⟩
    · exact hheads
    · exact hentf
    · rw [hackey, hE1]
      dsimp only []
      exact hkey1
    · simp [hE1]
    · rw [hackey, hE2]
      dsimp only []
      exact hkey2
    · simp [hE2]
    · rw [hackey, hE3]
      dsimp only []
      exact hkey4
    · simp [hE3]
    · rw [hackey, hE4]
      dsimp only []
      exact hkey3
    · simp [hE4]
    · rw [hentf]
      exact fourEntry_balance (persistOneOut db t tr mr) bu su E1 E2 E3 E4
        (t.Price * t.Quantity) t.Quantity
        (by rw [hackey, hE1]; dsimp only []; exact hkey1) (by simp [hE1])
        (by rw [hackey, hE2]; dsimp only []; exact hkey2) (by simp [hE2])
        (by rw [hackey, hE3]; dsimp only []; exact hkey4) (by simp [hE3])
        (by rw [hackey, hE4]; dsimp only []; exact hkey3) (by simp [hE4])

/-- The per-trade ledger contract does not depend on which pre-state supplied
the order rows, as long as the orders tables agree. -/
theorem PerTradeLedger_congr_orders (d0 d1 dbf : DB) (t : Trade) (nt : DBTrade)
    (h : d1.orders = d0.orders) (hp : PerTradeLedger d1 dbf t nt) :
    PerTradeLedger d0 dbf t nt := by
  have hb : buyerSellerOf d1 t = buyerSellerOf d0 t := by
    unfold buyerSellerOf GetOrderForUpdate
    rw [h]
  obtain ⟨h1, h2, h3, h4, lh, bu, su, e1, e2, e3, e4, hheads, hbss, hent,
    k1, a1, k2, a2, k3, a3, k4, a4, hbal⟩ := hp
  exact ⟨h1, h2, h3, h4, lh, bu, su, e1, e2, e3, e4, hheads, hb ▸ hbss, hent,
    k1, a1, k2, a2, k3, a3, k4, a4, hbal⟩

/-- The per-trade ledger contract established in a fresh state survives any
later extension: appended headers and entries use strictly larger generated
ids, so the filters still single out the original header and its four
entries. -/
theorem PerTradeLedger_mono (db0 d1 d2 : DB) (t : Trade) (nt : DBTrade)
    (hf1 : FreshDB d1) (hext : DBExtends d1 d2) (hnt : nt.id < d1.nextId)
    (hp : PerTradeLedger db0 d1 t nt) : PerTradeLedger db0 d2 t nt := by
  obtain ⟨h1, h2, h3, h4, lh, bu, su, e1, e2, e3, e4, hheads, hbss, hent,
    k1, a1, k2, a2, k3, a3, k4, a4, hbal⟩ := hp
  obtain ⟨ho, hn, ⟨ts, hts, hts2⟩, ⟨ls, hls, hls2⟩, ⟨es, hes, hes2⟩, hacs⟩ := hext
  have hlhmem : lh ∈ d1.ledgers := by
    have hm : lh ∈ headersFor d1 nt.id := by
      rw [hheads]
      exact List.mem_singleton.2 rfl
    unfold headersFor at hm
    exact List.mem_of_mem_filter hm
  have hlhlt : lh.id < d1.nextId := (hf1.1 lh hlhmem).1
  have hheads2 : headersFor d2 nt.id = [lh] := by
    unfold headersFor
    rw [hls, List.filter_append]
    have hzero : ls.filter (fun l => l.refType == "trade" && l.refId == nt.id) = [] := by
      rw [List.filter_eq_nil_iff]
      intro l hl
      have := (hls2 l hl).2
      simp only [Bool.and_eq_true, beq_iff_eq, not_and]
      intro _
      omega
    rw [hzero, List.append_nil]
    exact hheads
  have hent2 : entriesOf d2 lh.id = [e1, e2, e3, e4] := by
    unfold entriesOf
    rw [hes, List.filter_append]
    have hzero : es.filter (fun e => e.ledgerId == lh.id) = [] := by
      rw [List.filter_eq_nil_iff]
      intro e he
      have := hes2 e he
      simp only [beq_iff_eq]
      omega
    rw [hzero, List.append_nil]
    exact hent
  have k1b : accountKey d2 e1.accountId = some (bu, "USD") :=
    accountKey_append d1 d2 hacs _ _ k1
  have k2b : accountKey d2 e2.accountId = some (bu, "BTC") :=
    accountKey_append d1 d2 hacs _ _ k2
  have k3b : accountKey d2 e3.accountId = some (su, "BTC") :=
    accountKey_append d1 d2 hacs _ _ k3
  have k4b : accountKey d2 e4.accountId = some (su, "USD") :=
    accountKey_append d1 d2 hacs _ _ k4
  refine ⟨h1, h2, h3, h4, lh, bu, su, e1, e2, e3, e4, hheads2, hbss, hent2,
    k1b, a1, k2b, a2, k3b, a3, k4b, a4, ?_⟩
  rw [hent2]
  exact fourEntry_balance d2 bu su e1 e2 e3 e4 (t.Price * t.Quantity) t.Quantity
    k1b a1 k2b a2 k3b a3 k4b a4

/-- Induction over the settlement loop: orders unchanged, freshness and
extension preserved, and one per-trade ledger contract per processed trade. -/
theorem persistLoop_spec : ∀ (trades : List Trade) (db : DB) (log : List String)
    (db2 : DB) (log2 : List String),
    FreshDB db →
    (∀ t ∈ trades, ∃ tr mr, GetOrderForUpdate db t.TakerOrderID = some tr ∧
      GetOrderForUpdate db t.MakerOrderID = some mr) →
    persistLoop db log trades = .ok (db2, log2) →
    DBExtends db db2 ∧ FreshDB db2 ∧
    ∃ nts, db2.trades = db.trades ++ nts ∧
      List.Forall₂ (PerTradeLedger db db2) trades nts := by
  intro trades
  induction trades with
  | nil =>
    intro db log db2 log2 hf _ h
    simp only [persistLoop, Except.ok.injEq, Prod.mk.injEq] at h
    rw [← h.1]
    exact ⟨DBExtends_refl db, hf, [], by simp, List.Forall₂.nil⟩
  | cons t rest ih =>
    intro db log db2 log2 hf hrows h
    obtain ⟨tr, mr, htr, hmr⟩ := hrows t (List.mem_cons_self t rest)
    have heq := persistOne_eq db t log tr mr htr hmr
    simp only [persistLoop] at h
    rw [heq] at h
    obtain ⟨hords, htrs, hext1, hf1, hlt1, hper⟩ := persistOne_spec db t tr mr hf htr hmr
    have hrows1 : ∀ t2 ∈ rest, ∃ tr2 mr2,
        GetOrderForUpdate (persistOneOut db t tr mr) t2.TakerOrderID = some tr2 ∧
        GetOrderForUpdate (persistOneOut db t tr mr) t2.MakerOrderID = some mr2 := by
      intro t2 ht2
      obtain ⟨tr2, mr2, h1, h2⟩ := hrows t2 (List.mem_cons_of_mem t ht2)
      have e1 : GetOrderForUpdate (persistOneOut db t tr mr) t2.TakerOrderID =
          GetOrderForUpdate db t2.TakerOrderID := by
        unfold GetOrderForUpdate
        rw [hords]
      have e2 : GetOrderForUpdate (persistOneOut db t tr mr) t2.MakerOrderID =
          GetOrderForUpdate db t2.MakerOrderID := by
        unfold GetOrderForUpdate
        rw [hords]
      exact ⟨tr2, mr2, e1.trans h1, e2.trans h2⟩
    obtain ⟨hext2, hf2, nts, hnts, hfa⟩ :=
      ih (persistOneOut db t tr mr) (log ++ [t.TakerOrderID, t.MakerOrderID]) db2 log2
        hf1 hrows1 h
    refine ⟨DBExtends_trans _ _ _ hext1 hext2, hf2,
      ⟨db.nextId, t.TakerOrderID, t.MakerOrderID, t.Price, t.Quantity⟩ :: nts, ?_, ?_⟩
    · rw [hnts, htrs]
      simp
    · refine List.Forall₂.cons ?_ ?_
      · exact PerTradeLedger_mono db (persistOneOut db t tr mr) db2 t _ hf1 hext2 hlt1 hper
      · refine List.Forall₂.imp ?_ hfa
        intro a c hac
        exact PerTradeLedger_congr_orders db (persistOneOut db t tr mr) db2 a c hords hac

/-- C5: for every trade the settlement step persists, exactly one ledger
header is created referencing that trade (`headersFor` singles it out in the
final state), owning exactly four signed entries: the buyer is debited the
notional `price·quantity` in the quote asset USD and credited `quantity` in
the base asset BTC, the seller mirrors the opposite, and the header's entries
sum to zero per asset.  The buyer is the owner of the BUY-side row and the
seller the owner of the SELL-side row, resolved exactly as the code resolves
them from the taker row's side (`buyerSellerOf`). -/
theorem c5_settlement_ledger_balanced (db : DB) (trades : List Trade) (db2 : DB)
    (log : List String) (hf : FreshDB db)
    (hrows : ∀ t ∈ trades, ∃ tr mr,
      GetOrderForUpdate db t.TakerOrderID = some tr ∧
      GetOrderForUpdate db t.MakerOrderID = some mr ∧
      ((tr.side = "BUY" ∧ mr.side = "SELL") ∨ (tr.side = "SELL" ∧ mr.side = "BUY")))
    (h : persistTradesAndLedger db trades = .ok (db2, log)) :
    ∃ nts, db2.trades = db.trades ++ nts ∧
      List.Forall₂ (PerTradeLedger db db2) trades nts ∧
      (∀ t ∈ trades, ∀ tr mr, GetOrderForUpdate db t.TakerOrderID = some tr →
        GetOrderForUpdate db t.MakerOrderID = some mr →
        buyerSellerOf db t =
          some (if tr.side = "BUY" then (tr.userId, mr.userId)
                else (mr.userId, tr.userId))) := by
  have hrows2 : ∀ t ∈ trades, ∃ tr mr, GetOrderForUpdate db t.TakerOrderID = some tr ∧
      GetOrderForUpdate db t.MakerOrderID = some mr := by
    intro t ht
    obtain ⟨tr, mr, h1, h2, _⟩ := hrows t ht
    exact ⟨tr, mr, h1, h2⟩
  obtain ⟨_, _, nts, hnts, hfa⟩ := persistLoop_spec trades db [] db2 log hf hrows2 h
  refine ⟨nts, hnts, hfa, ?_⟩
  intro t _ tr mr htr hmr
  unfold buyerSellerOf
  rw [htr, hmr]

/-- Durable rows backing the concrete C5 witness: resting SELL maker A1 and
BUY taker B7, both for 2 units at price 100. -/
def c5wDB : DB :=
  ⟨[⟨"A1", "u2", "BTC-USD", "SELL", 100, 2, 2, "OPEN", 0⟩,
    ⟨"B7", "u1", "BTC-USD", "BUY", 100, 2, 2, "OPEN", 1⟩], [], [], [], [], 2⟩

/-- The single trade of the C5 witness. -/
def c5wTrades : List Trade := [⟨"B7", "A1", 100, 2⟩]

/-- Computed outcome of persisting the C5 witness trade. -/
def c5wOut : DB × List String :=
  (persistTradesAndLedger c5wDB c5wTrades).toOption.getD (c5wDB, [])

/-- Witness for C5 at a concrete trade between two concrete rows. -/
theorem c5_settlement_ledger_balanced_witness :
    FreshDB c5wDB ∧
    ∃ nts, c5wOut.1.trades = c5wDB.trades ++ nts ∧
      List.Forall₂ (PerTradeLedger c5wDB c5wOut.1) c5wTrades nts ∧
      (∀ t ∈ c5wTrades, ∀ tr mr, GetOrderForUpdate c5wDB t.TakerOrderID = some tr →
        GetOrderForUpdate c5wDB t.MakerOrderID = some mr →
        buyerSellerOf c5wDB t =
          some (if tr.side = "BUY" then (tr.userId, mr.userId)
                else (mr.userId, tr.userId))) := by
  refine ⟨by decide, ?_⟩
  refine c5_settlement_ledger_balanced c5wDB c5wTrades c5wOut.1 c5wOut.2 (by decide) ?_ rfl
  intro t ht
  simp only [c5wTrades, List.mem_singleton] at ht
  subst ht
  exact ⟨⟨"B7", "u1", "BTC-USD", "BUY", 100, 2, 2, "OPEN", 1⟩,
    ⟨"A1", "u2", "BTC-USD", "SELL", 100, 2, 2, "OPEN", 0⟩,
    by decide, by decide, Or.inl ⟨rfl, rfl⟩⟩
